import Mathlib

/-!
Verification of the settle-core reconciliation engine: dependency graph
(Kahn topological sort, layer validation), state store (drift detection,
mark-applied/mark-failed, cleanup), planner, executor, and the apt batch
driver.  Go maps are modelled as association lists with unique keys
(hypothesis `WF`), machine ints as `Int`, JSON-marshalled byte strings as
the inductive `JsonV` (two marshalled byte strings are equal exactly when
the corresponding `JsonV` values are equal; `json.Marshal` sorts object
keys, modelled by `canonConfig`).
-/

namespace Settle

/-- Model of `core.Dependency`: target id, edge type, required flag. -/
structure Dependency where
  target : String
  edgeType : String
  required : Bool
deriving DecidableEq

/-- Model of a resource registered in the graph (`core.BaseResource` as seen
through the `Resource` interface): id, type string, layer (Go `Layer` is an
int enum, modelled as `Nat`), declared dependencies and configuration map
(modelled as an association list of string keys and values). -/
structure Res where
  id : String
  rtype : String
  layer : Nat
  deps : List Dependency
  config : List (String × String)
deriving DecidableEq

/-- A `core.Graph` is its node map; `g.edges` always mirrors
`resource.GetDependencies()`, so edges are derived from the node list.
A list of `Res` represents the Go map `g.nodes`; `WF` states the map
key uniqueness that every real Go map has. -/
def WF (g : List Res) : Prop := (g.map (fun r => r.id)).Nodup

instance (g : List Res) : Decidable (WF g) := by
  unfold WF; infer_instance

/-- Ids of all nodes (keys of `g.nodes`). -/
def nodeIds (g : List Res) : List String := g.map (fun r => r.id)

/-- Model of `g.nodes[id]` lookup (`Graph.GetResource`). -/
def getResource (g : List Res) (i : String) : Option Res :=
  g.find? (fun r => r.id == i)

/-- Model of `g.edges[id]`: the declared dependencies of the node, or the
empty list when the key is absent (Go returns the nil slice). -/
def depsOf (g : List Res) (i : String) : List Dependency :=
  match getResource g i with
  | none => []
  | some r => r.deps

/-- Number of required dependencies in `ds` whose target is `k` (how often
the Go loop `for _, dep := range deps { if dep.Required { inDegree[dep.Target]++ } }`
increments key `k` for this dependency list). -/
def reqCountD (ds : List Dependency) (k : String) : Nat :=
  (ds.filter (fun d => d.required && d.target == k)).length

/-- Initial in-degree of key `k`: total number of required dependency
entries over all nodes that target `k` (Go `inDegree` after the counting
loop; Go ints are modelled as `Int` because the executor loop decrements
below zero on phantom keys). -/
def initDeg (g : List Res) (k : String) : Int :=
  (((g.map (fun r => reqCountD r.deps k)).sum : Nat) : Int)

/-- `reqEdgeB g u v` holds when some node with id `u` declares a required
dependency on `v` (a required edge of the graph). -/
def reqEdgeB (g : List Res) (u v : String) : Bool :=
  g.any (fun r => r.id == u && r.deps.any (fun d => d.required && d.target == v))

/-- Propositional form of `reqEdgeB`. -/
def ReqEdge (g : List Res) (u v : String) : Prop := reqEdgeB g u v = true

instance (g : List Res) (u v : String) : Decidable (ReqEdge g u v) := by
  unfold ReqEdge; infer_instance

/-- Targets of all required dependency entries of the graph. -/
def targetsReq (g : List Res) : List String :=
  g.flatMap (fun r => ((r.deps.filter (fun d => d.required)).map (fun d => d.target)))

/-- Every key the Kahn loop can ever touch: node ids plus required targets. -/
def allKeys (g : List Res) : List String := nodeIds g ++ targetsReq g

/-- One iteration of the inner loop of `Graph.TopologicalSort`: for each
dependency of the dequeued node, if required, decrement the in-degree of
its target and enqueue the target when the count reaches zero. -/
def stepDeps : List Dependency → (String → Int) → List String → ((String → Int) × List String)
  | [], deg, q => (deg, q)
  | d :: ds, deg, q =>
    if d.required then
      let deg2 := fun k => if k = d.target then deg k - 1 else deg k
      stepDeps ds deg2 (if deg2 d.target = 0 then q ++ [d.target] else q)
    else stepDeps ds deg q

/-- State of the Kahn loop: pending queue, in-degree map, emitted result. -/
structure KS where
  queue : List String
  deg : String → Int
  acc : List String

/-- The while-loop of `Graph.TopologicalSort` (Kahn): dequeue the front,
append it to the result, then process its dependencies.  `fuel` bounds the
number of iterations; `topologicalSort` supplies enough fuel that the loop
always drains the queue (proved below), so the fuel-zero branch never
changes the computed result. -/
def kahnRun (g : List Res) : Nat → List String → (String → Int) → List String → KS
  | 0, q, deg, acc => ⟨q, deg, acc⟩
  | _ + 1, [], deg, acc => ⟨[], deg, acc⟩
  | fuel + 1, c :: rest, deg, acc =>
    let p := stepDeps (depsOf g c) deg rest
    kahnRun g fuel p.2 p.1 (acc ++ [c])

/-- The initial queue of `Graph.TopologicalSort`: keys with in-degree
zero.  Phantom keys start at degree at least one, so the initial queue is
exactly the in-degree-zero nodes. -/
def initQueue (g : List Res) : List String :=
  (nodeIds g).filter (fun i => initDeg g i == 0)

/-- The final state of the Kahn loop of `Graph.TopologicalSort`. -/
def sortState (g : List Res) : KS :=
  kahnRun g (allKeys g).length (initQueue g) (initDeg g) []

/-- Model of `Graph.TopologicalSort`: build in-degrees, enqueue the nodes
with in-degree zero, run the loop, and fail with the cycle error (`none`,
Go returns a nil slice and an error) when the emitted length differs from
the node count. -/
def topologicalSort (g : List Res) : Option (List String) :=
  if (sortState g).acc.length = g.length then some (sortState g).acc else none

/-- Model of `ValidateLayerDependency`: a resource may only require a layer
at its own level or more foundational; `from < to` is the violation. -/
def validateLayerDependency (fromL toL : Nat) : Bool := decide (fromL < toL)

/-- Status values of `core.StateStatus`. -/
inductive StStatus where
  | pending | applied | failed | drifted | skipped | unknown
deriving DecidableEq

/-- Values stored in a state entry metadata map (`map[string]interface{}`):
either a configuration snapshot (under key "config") or a plain string
(the error text under key "error"). -/
inductive MetaVal where
  | cfg (c : List (String × String))
  | str (s : String)
deriving DecidableEq

/-- Model of the byte strings produced by `json.Marshal` on the values the
engine serializes: a JSON object with sorted keys, a JSON string, or the
Go zero-value empty string.  Two marshalled byte strings are equal exactly
when the corresponding `JsonV` values are equal. -/
inductive JsonV where
  | obj (fields : List (String × String))
  | jstr (s : String)
  | empty
deriving DecidableEq

/-- Insert a key/value pair into a key-sorted association list. -/
def insertByKey (p : String × String) : List (String × String) → List (String × String)
  | [] => [p]
  | q :: rest => if q.1 < p.1 then q :: insertByKey p rest else p :: q :: rest

/-- Key-sorted form of a configuration map: `json.Marshal` emits object
keys in sorted order, so this is the canonical serialized shape. -/
def canonConfig (c : List (String × String)) : List (String × String) :=
  c.foldr insertByKey []

/-- Marshal a configuration map. -/
def marshalConfig (c : List (String × String)) : JsonV := JsonV.obj (canonConfig c)

/-- Marshal a metadata value (`json.Marshal` on the `interface{}`). -/
def marshalMeta : MetaVal → JsonV
  | MetaVal.cfg c => JsonV.obj (canonConfig c)
  | MetaVal.str s => JsonV.jstr s

/-- Model of `core.ResourceState` (the timestamp carries no information
used by any claim and is omitted): status, checksum (the marshalled
configuration bytes, `JsonV.empty` for the Go zero value), metadata map. -/
structure RState where
  status : StStatus
  checksum : JsonV
  metadata : List (String × MetaVal)
deriving DecidableEq

/-- The state store: the Go map `StateManager.state` as an association
list with unique keys. -/
abbrev Store := List (String × RState)

/-- Model of `StateManager.GetState`. -/
def lookupState (s : Store) (i : String) : Option RState :=
  (s.find? (fun e => e.1 == i)).map (fun e => e.2)

/-- Lookup in a metadata map. -/
def lookupMeta (m : List (String × MetaVal)) (k : String) : Option MetaVal :=
  (m.find? (fun e => e.1 == k)).map (fun e => e.2)

/-- Model of `StateManager.SetState` (`s.state[id] = state`): overwrite the
entry in place or append a new one. -/
def setState : Store → String → RState → Store
  | [], i, v => [(i, v)]
  | (k, w) :: rest, i, v =>
    if k = i then (i, v) :: rest else (k, w) :: setState rest i v

/-- Model of `StateManager.DetectDrift`: drifted when no entry exists, or
the entry has no "config" snapshot, or the marshalled current
configuration differs from the marshalled snapshot. -/
def detectDrift (s : Store) (r : Res) : Bool :=
  match lookupState s r.id with
  | none => true
  | some st =>
    match lookupMeta st.metadata "config" with
    | none => true
    | some v => marshalConfig r.config != marshalMeta v

/-- Model of `StateManager.MarkApplied`: status applied, checksum = the
marshalled configuration, metadata.config = the configuration; the
immediate `SaveState` persistence is the returned store itself. -/
def markApplied (s : Store) (r : Res) : Store :=
  setState s r.id ⟨StStatus.applied, marshalConfig r.config, [("config", MetaVal.cfg r.config)]⟩

/-- Model of `StateManager.MarkFailed`: status failed, checksum left at the
Go zero value, metadata.error = the message. -/
def markFailed (s : Store) (r : Res) (msg : String) : Store :=
  setState s r.id ⟨StStatus.failed, JsonV.empty, [("error", MetaVal.str msg)]⟩

/-- Remove one id from the store (`StateManager.RemoveState`). -/
def removeState (s : Store) (i : String) : Store :=
  s.filter (fun e => !(e.1 == i))

/-- Model of `StateManager.Cleanup`: collect the ids with no node in the
current graph, remove them, and save (the `Bool`) exactly when at least
one id was removed. -/
def cleanup (g : List Res) (s : Store) : Store × Bool :=
  let toRemove := (s.map (fun e => e.1)).filter (fun i => !((nodeIds g).contains i))
  (toRemove.foldl removeState s, decide (0 < toRemove.length))

/-- Action types of `core.ActionType`. -/
inductive AType where
  | create | update | delete | noop
deriving DecidableEq

/-- Model of `core.Change` (never produced: the planner always emits an
empty change list). -/
structure Change where
  field : String
  oldValue : String
  newValue : String
deriving DecidableEq

/-- Model of `core.Action`; the metadata map always holds exactly the
"reason" string, modelled as the `reason` field. -/
structure Action where
  resourceId : String
  type : AType
  changes : List Change
  reason : String
deriving DecidableEq

/-- Model of `Planner.planResource`: no state entry means create; a drifted
entry means update; otherwise no-op. -/
def planResource (s : Store) (r : Res) : Action :=
  match lookupState s r.id with
  | none => ⟨r.id, AType.create, [], "resource not in state"⟩
  | some _ =>
    if detectDrift s r then ⟨r.id, AType.update, [], "configuration drift detected"⟩
    else ⟨r.id, AType.noop, [], "resource up to date"⟩

/-- The per-id loop of `Planner.Plan`: resolve each id of the order in the
graph (failing the whole plan when an id has no node) and plan it. -/
def planActions (g : List Res) (s : Store) : List String → Option (List Action)
  | [] => some []
  | i :: rest =>
    match getResource g i with
    | none => none
    | some r => (planActions g s rest).map (fun l => planResource s r :: l)

/-- Model of `Planner.Plan`: topological order, then one action per id. -/
def plan (g : List Res) (s : Store) : Option (List Action) :=
  (topologicalSort g).bind (planActions g s)

/-- Errors surfaced by `Graph.ValidateDependencies`, as structured values:
the cycle error, the missing-target error naming the depending resource
and the target, and the layer violation naming the depending resource and
both layers. -/
inductive VErr where
  | cycleErr
  | missingTarget (src tgt : String)
  | layerViolation (src : String) (fromL toL : Nat)
deriving DecidableEq

/-- Whether an error message names `u` as the offending resource. -/
def errNames : VErr → String → Prop
  | VErr.cycleErr, _ => False
  | VErr.missingTarget src _, u => src = u
  | VErr.layerViolation src _ _, u => src = u

instance (e : VErr) (u : String) : Decidable (errNames e u) := by
  cases e <;> simp only [errNames] <;> infer_instance

/-- The dependency scan of `ValidateDependencies` for one node: for each
required dependency, the target must exist and the layers must satisfy
`from >= to`; the first violation aborts. -/
def scanDeps (g : List Res) (r : Res) : List Dependency → Option VErr
  | [] => none
  | d :: ds =>
    if d.required then
      match getResource g d.target with
      | none => some (VErr.missingTarget r.id d.target)
      | some tr =>
        if validateLayerDependency r.layer tr.layer then
          some (VErr.layerViolation r.id r.layer tr.layer)
        else scanDeps g r ds
    else scanDeps g r ds

/-- The node scan of `ValidateDependencies`. -/
def validateScan (g : List Res) : List Res → Option VErr
  | [] => none
  | r :: rest =>
    match scanDeps g r r.deps with
    | some e => some e
    | none => validateScan g rest

/-- Model of `Graph.ValidateDependencies`: cycle check via the sort, then
the per-node required-edge scan. -/
def validateDependencies (g : List Res) : Option VErr :=
  match topologicalSort g with
  | none => some VErr.cycleErr
  | some _ => validateScan g g

/-- Model of `Plan.ValidatePlan`: re-run the sort, then
`ValidateDependencies`. -/
def validatePlan (g : List Res) : Option VErr :=
  match topologicalSort g with
  | none => some VErr.cycleErr
  | some _ => validateDependencies g

/-- A recorded per-action outcome (`core.ExecutionAction`, timestamps
omitted).  Only outcomes actually appended to `result.Actions` appear. -/
structure ExecAction where
  resourceId : String
  ok : Bool
  err : Option String
deriving DecidableEq

/-- Outcome of the executor loop: the recorded action outcomes (the list
`result.Actions`), the final store, the ids on which `Apply`/`Destroy` was
dispatched (in order), and the first error if any. -/
structure ExecOutcome where
  recorded : List ExecAction
  store : Store
  attempted : List String
  err : Option String
deriving DecidableEq

/-- The action loop of `Executor.Execute` with `executeAction` inlined.
`applyOut`/`destroyOut` give the outcome of each resource's `Apply` and
`Destroy` call (`none` = success, `some msg` = error).  On an action
error, `MarkFailed` runs, the loop halts, and — exactly as in the source —
the failed `ExecutionAction` is NOT appended to `result.Actions`; on
success `MarkApplied` runs; a no-op records success without dispatching. -/
def execActions (g : List Res) (applyOut destroyOut : String → Option String) :
    List Action → Store → ExecOutcome
  | [], s => ⟨[], s, [], none⟩
  | a :: rest, s =>
    match getResource g a.resourceId with
    | none => ⟨[], s, [], some ("resource " ++ a.resourceId ++ " not found")⟩
    | some r =>
      match a.type with
      | AType.noop =>
        let o := execActions g applyOut destroyOut rest s
        ⟨⟨a.resourceId, true, none⟩ :: o.recorded, o.store, o.attempted, o.err⟩
      | AType.create =>
        match applyOut a.resourceId with
        | some m => ⟨[], markFailed s r m, [a.resourceId], some m⟩
        | none =>
          let o := execActions g applyOut destroyOut rest (markApplied s r)
          ⟨⟨a.resourceId, true, none⟩ :: o.recorded, o.store, a.resourceId :: o.attempted, o.err⟩
      | AType.update =>
        match applyOut a.resourceId with
        | some m => ⟨[], markFailed s r m, [a.resourceId], some m⟩
        | none =>
          let o := execActions g applyOut destroyOut rest (markApplied s r)
          ⟨⟨a.resourceId, true, none⟩ :: o.recorded, o.store, a.resourceId :: o.attempted, o.err⟩
      | AType.delete =>
        match destroyOut a.resourceId with
        | some m => ⟨[], markFailed s r m, [a.resourceId], some m⟩
        | none =>
          let o := execActions g applyOut destroyOut rest (markApplied s r)
          ⟨⟨a.resourceId, true, none⟩ :: o.recorded, o.store, a.resourceId :: o.attempted, o.err⟩

/-- Model of `Executor.Execute`: validate the plan (validation failure
returns no `ExecutionResult` at all, modelled as `none`), then run the
action loop; the overall success flag is set only when every action
completed. -/
def execute (g : List Res) (applyOut destroyOut : String → Option String)
    (acts : List Action) (s : Store) : Option (Bool × ExecOutcome) :=
  match validatePlan g with
  | some _ => none
  | none =>
    let o := execActions g applyOut destroyOut acts s
    some (o.err.isNone, o)

/-- Model of `AptManager.Install` (`run p = true` means the per-package
`apt-get install` command succeeded): per-item failures are counted and
the call errors exactly when the failure count equals the package count. -/
def aptInstall (run : String → Bool) (host : String) (pkgs : List String) : Option String :=
  let failureCount := (pkgs.filter (fun p => run p = false)).length
  if failureCount = pkgs.length then
    some ("all package installations failed on host " ++ host)
  else none

/-- Model of `AptManager.Remove`, same escalation rule as `aptInstall`. -/
def aptRemove (run : String → Bool) (host : String) (pkgs : List String) : Option String :=
  let failureCount := (pkgs.filter (fun p => run p = false)).length
  if failureCount = pkgs.length then
    some ("all package removals failed on host " ++ host)
  else none

/-- Boolean chain: `chainB g a l` holds when consecutive elements of
`a :: l` are all joined by required edges. -/
def chainB (g : List Res) : String → List String → Bool
  | _, [] => true
  | a, b :: l => reqEdgeB g a b && chainB g b l

/-- `isReqCycleB g (v :: rest)` holds when following required edges from
`v` through `rest` returns to `v`: a cycle of the required subgraph. -/
def isReqCycleB (g : List Res) : List String → Bool
  | [] => false
  | v :: rest => chainB g v (rest ++ [v])

/-- Propositional form of `isReqCycleB`. -/
def IsReqCycle (g : List Res) (l : List String) : Prop := isReqCycleB g l = true

instance (g : List Res) (l : List String) : Decidable (IsReqCycle g l) := by
  unfold IsReqCycle; infer_instance

/-- The required subgraph is acyclic: no list of ids forms a cycle. -/
def Acyclic (g : List Res) : Prop := ∀ l, ¬ IsReqCycle g l

/-- All required dependency targets exist as nodes. -/
def TargetsExist (g : List Res) : Prop :=
  ∀ r ∈ g, ∀ d ∈ r.deps, d.required = true → d.target ∈ nodeIds g

instance (g : List Res) : Decidable (TargetsExist g) := by
  unfold TargetsExist; infer_instance

/-- `u` appears strictly before `v` in `l`. -/
def Before (l : List String) (u v : String) : Prop :=
  ∃ i j : Fin l.length, i.val < j.val ∧ l.get i = u ∧ l.get j = v

instance (l : List String) (u v : String) : Decidable (Before l u v) := by
  unfold Before; infer_instance

/-- Position of the first occurrence of `a` in `l` (length when absent). -/
def posOf (l : List String) (a : String) : Nat := l.findIdx (fun x => x == a)

/-- The resource of a node id (an arbitrary placeholder when absent; only
applied to ids that are nodes). -/
def resAt (g : List Res) (i : String) : Res :=
  (getResource g i).getD ⟨"", "", 0, [], []⟩

/-- Node `r` declares a required dependency on an existing node of a
strictly higher layer — the violation `ValidateDependencies` rejects. -/
def LayerViol (g : List Res) (r : Res) : Prop :=
  ∃ d ∈ r.deps, d.required = true ∧
    ∃ tr, getResource g d.target = some tr ∧ r.layer < tr.layer

instance (g : List Res) (r : Res) : Decidable (LayerViol g r) := by
  unfold LayerViol; infer_instance

/-- Total in-degree of key `k` as a natural number. -/
def initDegN (g : List Res) (k : String) : Nat :=
  (g.map (fun r => reqCountD r.deps k)).sum

/-- Number of required dependency entries targeting `k` whose declaring
node has already been emitted (is a member of `acc`). -/
def edgesFrom (g : List Res) (acc : List String) (k : String) : Nat :=
  ((g.filter (fun r => acc.contains r.id)).map (fun r => reqCountD r.deps k)).sum

/-- Descending list `[vals (s+k-1), ..., vals (s+1), vals s]`. -/
def descL (vals : Nat → String) (s : Nat) : Nat → List String
  | 0 => []
  | k + 1 => vals (s + k) :: descL vals s k

/-! ### Generic list helpers -/

theorem posOf_lt_of_mem_take {l : List String} {a : String} :
    ∀ {j : Nat}, a ∈ l.take j → posOf l a < j := by
  induction l with
  | nil => intro j h; simp at h
  | cons x xs ih =>
    intro j h
    cases j with
    | zero => simp at h
    | succ j =>
      simp only [List.take_succ_cons, List.mem_cons] at h
      by_cases hx : (x == a) = true
      · unfold posOf
        simp only [List.findIdx_cons, hx, cond_true]
        omega
      · have hxf : (x == a) = false := by simpa using hx
        rcases h with h | h
        · subst h
          simp at hxf
        · have hrec := ih (j := j) h
          unfold posOf at hrec ⊢
          simp only [List.findIdx_cons, hxf, cond_false]
          omega

theorem posOf_get_of_nodup {l : List String} (hl : l.Nodup) :
    ∀ {j : Nat} (hj : j < l.length), posOf l (l.get ⟨j, hj⟩) = j := by
  induction l with
  | nil => intro j hj; simp at hj
  | cons x xs ih =>
    intro j hj
    cases j with
    | zero => simp [posOf, List.findIdx_cons]
    | succ j =>
      have hj2 : j < xs.length := by simpa using hj
      have hnd := List.nodup_cons.mp hl
      have hmem : xs.get ⟨j, hj2⟩ ∈ xs := List.get_mem xs j hj2
      have hxf : (x == xs.get ⟨j, hj2⟩) = false := by
        simp only [beq_eq_false_iff_ne, ne_eq]
        intro he; exact hnd.1 (he ▸ hmem)
      have hrec := ih hnd.2 hj2
      have hget : (x :: xs).get ⟨j + 1, hj⟩ = xs.get ⟨j, hj2⟩ := rfl
      rw [hget]
      unfold posOf at hrec ⊢
      simp only [List.findIdx_cons, hxf, cond_false]
      omega

theorem mem_take_get {l : List String} {a : String} {j : Nat} (h : a ∈ l.take j) :
    ∃ i : Fin l.length, i.val < j ∧ l.get i = a := by
  obtain ⟨n, hn⟩ := List.mem_iff_get.mp h
  have hlt : n.val < min j l.length := by
    have := n.isLt
    simpa [List.length_take] using this
  have h1 : n.val < j := lt_of_lt_of_le hlt (min_le_left _ _)
  have h2 : n.val < l.length := lt_of_lt_of_le hlt (min_le_right _ _)
  refine ⟨⟨n.val, h2⟩, h1, ?_⟩
  have hg : (l.take j).get n = l.get ⟨n.val, h2⟩ := by
    simp [List.get_eq_getElem, List.getElem_take]
  rw [← hg, hn]

theorem find?_eq_some_of_unique {p : Res → Bool} {g : List Res} {r : Res}
    (hmem : r ∈ g) (hr : p r = true)
    (huniq : ∀ r1 ∈ g, ∀ r2 ∈ g, p r1 = true → p r2 = true → r1 = r2) :
    g.find? p = some r := by
  induction g with
  | nil => simp at hmem
  | cons x xs ih =>
    rcases List.mem_cons.mp hmem with he | hm
    · subst he; exact List.find?_cons_of_pos _ hr
    · by_cases hx : p x = true
      · have hxr : x = r := huniq x (by simp) r (List.mem_cons_of_mem _ hm) hx hr
        subst hxr; exact List.find?_cons_of_pos _ hx
      · rw [List.find?_cons_of_neg _ hx]
        exact ih hm fun r1 h1 r2 h2 =>
          huniq r1 (List.mem_cons_of_mem _ h1) r2 (List.mem_cons_of_mem _ h2)

theorem wf_unique {g : List Res} (hWF : WF g) :
    ∀ r1 ∈ g, ∀ r2 ∈ g, r1.id = r2.id → r1 = r2 := by
  unfold WF at hWF
  induction g with
  | nil => intro r1 h; simp at h
  | cons x xs ih =>
    simp only [List.map_cons, List.nodup_cons] at hWF
    intro r1 h1 r2 h2 hid
    rcases List.mem_cons.mp h1 with he1 | hm1 <;> rcases List.mem_cons.mp h2 with he2 | hm2
    · rw [he1, he2]
    · subst he1
      apply absurd _ hWF.1
      rw [hid]
      exact List.mem_map_of_mem (fun r => r.id) hm2
    · subst he2
      apply absurd _ hWF.1
      rw [← hid]
      exact List.mem_map_of_mem (fun r => r.id) hm1
    · exact ih hWF.2 r1 hm1 r2 hm2 hid

theorem getResource_eq_some_iff {g : List Res} (hWF : WF g) {i : String} {r : Res} :
    getResource g i = some r ↔ (r ∈ g ∧ r.id = i) := by
  constructor
  · intro h
    have hm := List.mem_of_find?_eq_some h
    have hp := List.find?_some h
    exact ⟨hm, by simpa using hp⟩
  · rintro ⟨hm, hid⟩
    exact find?_eq_some_of_unique hm (by simp [hid])
      (fun r1 h1 r2 h2 hp1 hp2 => wf_unique hWF r1 h1 r2 h2 (by
        simp only [beq_iff_eq] at hp1 hp2; rw [hp1, hp2]))

theorem getResource_isSome_of_mem {g : List Res} {i : String} (h : i ∈ nodeIds g) :
    ∃ r, getResource g i = some r := by
  unfold nodeIds at h
  obtain ⟨r, hr, hid⟩ := List.mem_map.mp h
  unfold getResource
  rcases hf : g.find? (fun r => r.id == i) with _ | r2
  · exact absurd (List.find?_eq_none.mp hf r hr) (by simp [hid])
  · exact ⟨r2, hf⟩

theorem getResource_mem {g : List Res} {i : String} {r : Res}
    (h : getResource g i = some r) : r ∈ g ∧ r.id = i :=
  ⟨List.mem_of_find?_eq_some h, by simpa using List.find?_some h⟩

/-! ### Required-edge helpers -/

theorem reqEdge_iff {g : List Res} {u v : String} :
    ReqEdge g u v ↔ ∃ r ∈ g, r.id = u ∧ ∃ d ∈ r.deps, d.required = true ∧ d.target = v := by
  unfold ReqEdge reqEdgeB
  simp only [List.any_eq_true, Bool.and_eq_true, beq_iff_eq]

theorem reqEdge_src_mem {g : List Res} {u v : String} (h : ReqEdge g u v) :
    u ∈ nodeIds g := by
  obtain ⟨r, hr, hid, -⟩ := reqEdge_iff.mp h
  exact hid ▸ List.mem_map_of_mem (fun r => r.id) hr

theorem reqEdge_tgt_mem {g : List Res} (hT : TargetsExist g) {u v : String}
    (h : ReqEdge g u v) : v ∈ nodeIds g := by
  obtain ⟨r, hr, -, d, hd, hreq, htgt⟩ := reqEdge_iff.mp h
  exact htgt ▸ hT r hr d hd hreq

theorem reqCountD_pos_iff {ds : List Dependency} {k : String} :
    1 ≤ reqCountD ds k ↔ ∃ d ∈ ds, d.required = true ∧ d.target = k := by
  unfold reqCountD
  rw [Nat.one_le_iff_ne_zero, Ne, List.length_eq_zero, List.filter_eq_nil_iff]
  push_neg
  simp only [Bool.and_eq_true, beq_iff_eq, Bool.not_eq_true, not_forall, exists_prop]

theorem reqEdge_of_count {g : List Res} {r : Res} (hr : r ∈ g) {k : String}
    (h : 1 ≤ reqCountD r.deps k) : ReqEdge g r.id k := by
  obtain ⟨d, hd, hreq, htgt⟩ := reqCountD_pos_iff.mp h
  exact reqEdge_iff.mpr ⟨r, hr, rfl, d, hd, hreq, htgt⟩

theorem reqEdge_count {g : List Res} {u v : String} (h : ReqEdge g u v) :
    ∃ r ∈ g, r.id = u ∧ 1 ≤ reqCountD r.deps v := by
  obtain ⟨r, hr, hid, d, hd, hreq, htgt⟩ := reqEdge_iff.mp h
  exact ⟨r, hr, hid, reqCountD_pos_iff.mpr ⟨d, hd, hreq, htgt⟩⟩

theorem mem_targetsReq_of_count {g : List Res} {c k : String}
    (h : 1 ≤ reqCountD (depsOf g c) k) : k ∈ targetsReq g := by
  unfold depsOf at h
  rcases hr : getResource g c with _ | r
  · rw [hr] at h; simp [reqCountD] at h
  · rw [hr] at h
    obtain ⟨d, hd, hreq, htgt⟩ := reqCountD_pos_iff.mp h
    have hm := (getResource_mem hr).1
    unfold targetsReq
    exact List.mem_flatMap.mpr ⟨r, hm,
      List.mem_map.mpr ⟨d, List.mem_filter.mpr ⟨hd, by simp [hreq]⟩, htgt⟩⟩

theorem targetsReq_subset {g : List Res} (hT : TargetsExist g) :
    ∀ k ∈ targetsReq g, k ∈ nodeIds g := by
  intro k hk
  unfold targetsReq at hk
  obtain ⟨r, hr, hm⟩ := List.mem_flatMap.mp hk
  obtain ⟨d, hd, htgt⟩ := List.mem_map.mp hm
  have := List.mem_filter.mp hd
  exact htgt ▸ hT r hr d this.1 (by simpa using this.2)

theorem allKeys_subset {g : List Res} (hT : TargetsExist g) :
    ∀ k ∈ allKeys g, k ∈ nodeIds g := by
  intro k hk
  unfold allKeys at hk
  rcases List.mem_append.mp hk with h | h
  · exact h
  · exact targetsReq_subset hT k h

/-! ### Counting lemmas for the in-degree bookkeeping -/

theorem initDeg_eq (g : List Res) (k : String) : initDeg g k = (initDegN g k : Int) := rfl

theorem initDegN_cons (r : Res) (g : List Res) (k : String) :
    initDegN (r :: g) k = reqCountD r.deps k + initDegN g k := by
  simp [initDegN]

theorem edgesFrom_nil (g : List Res) (k : String) : edgesFrom g [] k = 0 := by
  simp [edgesFrom]

theorem edgesFrom_cons_pos {r : Res} {acc : List String} (g : List Res) (k : String)
    (h : acc.contains r.id = true) :
    edgesFrom (r :: g) acc k = reqCountD r.deps k + edgesFrom g acc k := by
  have h2 : r.id ∈ acc := by simpa using h
  simp [edgesFrom, List.filter_cons, h2]

theorem edgesFrom_cons_neg {r : Res} {acc : List String} (g : List Res) (k : String)
    (h : acc.contains r.id = false) :
    edgesFrom (r :: g) acc k = edgesFrom g acc k := by
  have h2 : r.id ∉ acc := by simpa using h
  simp [edgesFrom, List.filter_cons, h2]

theorem edgesFrom_le (g : List Res) (acc : List String) (k : String) :
    edgesFrom g acc k ≤ initDegN g k := by
  induction g with
  | nil => simp [edgesFrom, initDegN]
  | cons r g ih =>
    rw [initDegN_cons]
    rcases hc : acc.contains r.id with _ | _
    · rw [edgesFrom_cons_neg g k hc]; omega
    · rw [edgesFrom_cons_pos g k hc]; omega

theorem edgesFrom_lt_exists {g : List Res} {acc : List String} {k : String}
    (h : edgesFrom g acc k < initDegN g k) :
    ∃ r ∈ g, acc.contains r.id = false ∧ 1 ≤ reqCountD r.deps k := by
  induction g with
  | nil => simp [edgesFrom, initDegN] at h
  | cons r g ih =>
    rw [initDegN_cons] at h
    rcases hc : acc.contains r.id with _ | _
    · rw [edgesFrom_cons_neg g k hc] at h
      by_cases hz : 1 ≤ reqCountD r.deps k
      · exact ⟨r, by simp, hc, hz⟩
      · obtain ⟨r2, h1, h2, h3⟩ := ih (by omega)
        exact ⟨r2, List.mem_cons_of_mem _ h1, h2, h3⟩
    · rw [edgesFrom_cons_pos g k hc] at h
      obtain ⟨r2, h1, h2, h3⟩ := ih (by omega)
      exact ⟨r2, List.mem_cons_of_mem _ h1, h2, h3⟩

theorem edgesFrom_eq_forall {g : List Res} {acc : List String} {k : String}
    (h : edgesFrom g acc k = initDegN g k) :
    ∀ r ∈ g, 1 ≤ reqCountD r.deps k → acc.contains r.id = true := by
  intro r hr hcnt
  rcases hc : acc.contains r.id with _ | _
  · exfalso
    induction g with
    | nil => simp at hr
    | cons x g ih =>
      rw [initDegN_cons] at h
      rcases List.mem_cons.mp hr with he | hm
      · subst he
        rw [edgesFrom_cons_neg g k hc] at h
        have := edgesFrom_le g acc k
        omega
      · rcases hx : acc.contains x.id with _ | _
        · rw [edgesFrom_cons_neg g k hx] at h
          have h1 := edgesFrom_le g acc k
          exact ih (by omega) hm
        · rw [edgesFrom_cons_pos g k hx] at h
          exact ih (by omega) hm
  · rfl

theorem edgesFrom_append_not_node {g : List Res} {c : String}
    (hc : c ∉ nodeIds g) (acc : List String) (k : String) :
    edgesFrom g (acc ++ [c]) k = edgesFrom g acc k := by
  induction g with
  | nil => simp [edgesFrom]
  | cons r g ih =>
    have hne : r.id ≠ c := by
      intro he; exact hc (by simp [nodeIds, he])
    have hcont : (acc ++ [c]).contains r.id = acc.contains r.id := by
      simp [hne]
    have hc2 : c ∉ nodeIds g := fun hm => hc (by simp [nodeIds] at hm ⊢; tauto)
    rcases hr : acc.contains r.id with _ | _
    · rw [edgesFrom_cons_neg g k (hcont.trans hr), edgesFrom_cons_neg g k hr]
      exact ih hc2
    · rw [edgesFrom_cons_pos g k (hcont.trans hr), edgesFrom_cons_pos g k hr, ih hc2]

theorem edgesFrom_append_one {g : List Res} (hWF : WF g) {c : String} {acc : List String}
    (hc : c ∉ acc) (k : String) :
    edgesFrom g (acc ++ [c]) k = edgesFrom g acc k + reqCountD (depsOf g c) k := by
  induction g with
  | nil => simp [edgesFrom, depsOf, getResource, reqCountD]
  | cons r g ih =>
    unfold WF at hWF
    rw [List.map_cons] at hWF
    have hnd := List.nodup_cons.mp hWF
    have hWF2 : WF g := hnd.2
    by_cases he : r.id = c
    · have hacc : acc.contains r.id = false := by
        rw [he]; simp [hc]
      have hcont : (acc ++ [c]).contains r.id = true := by
        simp [he]
      have hdeps : depsOf (r :: g) c = r.deps := by
        simp [depsOf, getResource, List.find?_cons_of_pos, he]
      have hnotin : c ∉ nodeIds g := by
        rw [← he]; exact hnd.1
      rw [edgesFrom_cons_pos g k hcont, edgesFrom_cons_neg g k hacc, hdeps,
        edgesFrom_append_not_node hnotin acc k]
      omega
    · have hcont : (acc ++ [c]).contains r.id = acc.contains r.id := by
        simp [he]
      have hdeps : depsOf (r :: g) c = depsOf g c := by
        simp only [depsOf, getResource]
        rw [List.find?_cons_of_neg _ (by simp [he])]
      rw [hdeps]
      rcases hr : acc.contains r.id with _ | _
      · rw [edgesFrom_cons_neg g k (hcont.trans hr), edgesFrom_cons_neg g k hr]
        exact ih hWF2
      · rw [edgesFrom_cons_pos g k (hcont.trans hr), edgesFrom_cons_pos g k hr, ih hWF2]
        omega

/-! ### Lemmas about one inner-loop pass -/

theorem reqCountD_cons_req {d : Dependency} {ds : List Dependency} (hreq : d.required = true)
    (k : String) :
    reqCountD (d :: ds) k = (if d.target = k then 1 else 0) + reqCountD ds k := by
  unfold reqCountD
  by_cases ht : d.target = k
  · rw [List.filter_cons, if_pos (by simp [hreq, ht])]
    simp [ht]
    omega
  · rw [List.filter_cons, if_neg (by simp [hreq, ht])]
    simp [ht]

theorem reqCountD_cons_nreq {d : Dependency} {ds : List Dependency} (hreq : d.required = false)
    (k : String) : reqCountD (d :: ds) k = reqCountD ds k := by
  unfold reqCountD
  rw [List.filter_cons, if_neg (by simp [hreq])]

theorem stepDeps_cons_req {d : Dependency} {ds : List Dependency} {deg : String → Int}
    {q : List String} (hreq : d.required = true) :
    stepDeps (d :: ds) deg q =
      stepDeps ds (fun k => if k = d.target then deg k - 1 else deg k)
        (if deg d.target - 1 = 0 then q ++ [d.target] else q) := by
  simp [stepDeps, hreq]

theorem stepDeps_cons_nreq {d : Dependency} {ds : List Dependency} {deg : String → Int}
    {q : List String} (hreq : d.required = false) :
    stepDeps (d :: ds) deg q = stepDeps ds deg q := by
  simp [stepDeps, hreq]

theorem stepDeps_deg : ∀ (ds : List Dependency) (deg : String → Int) (q : List String)
    (k : String), (stepDeps ds deg q).1 k = deg k - (reqCountD ds k : Int) := by
  intro ds
  induction ds with
  | nil => intro deg q k; simp [stepDeps, reqCountD]
  | cons d ds ih =>
    intro deg q k
    rcases hreq : d.required with _ | _
    · rw [stepDeps_cons_nreq hreq, ih, reqCountD_cons_nreq hreq]
    · rw [stepDeps_cons_req hreq, ih, reqCountD_cons_req hreq]
      by_cases ht : k = d.target
      · rw [if_pos ht, if_pos (ht ▸ rfl)]
        push_cast
        omega
      · rw [if_neg ht, if_neg fun he => ht he.symm]
        push_cast
        omega

theorem stepDeps_mem : ∀ (ds : List Dependency) (deg : String → Int) (q : List String)
    (t : String), t ∈ (stepDeps ds deg q).2 ↔
      (t ∈ q ∨ (1 ≤ deg t ∧ deg t ≤ (reqCountD ds t : Int))) := by
  intro ds
  induction ds with
  | nil =>
    intro deg q t
    simp only [stepDeps, reqCountD, List.filter_nil, List.length_nil, Nat.cast_zero]
    constructor
    · exact fun h => Or.inl h
    · rintro (h | ⟨h1, h2⟩)
      · exact h
      · omega
  | cons d ds ih =>
    intro deg q t
    rcases hreq : d.required with _ | _
    · rw [stepDeps_cons_nreq hreq, ih, reqCountD_cons_nreq hreq]
    · rw [stepDeps_cons_req hreq, ih, reqCountD_cons_req hreq]
      by_cases ht : t = d.target
      · subst ht
        simp only [if_pos rfl]
        by_cases hz : deg d.target - 1 = 0
        · simp only [if_pos hz, List.mem_append, List.mem_singleton]
          push_cast
          constructor
          · intro _
            right
            omega
          · intro _
            left
            right
            trivial
        · simp only [if_neg hz]
          push_cast
          constructor
          · rintro (h | ⟨h1, h2⟩)
            · exact Or.inl h
            · right; omega
          · rintro (h | ⟨h1, h2⟩)
            · exact Or.inl h
            · right; omega
      · have hts : ¬(d.target = t) := fun he => ht he.symm
        simp only [if_neg ht, if_neg hts]
        by_cases hz : deg d.target - 1 = 0
        · simp only [if_pos hz, List.mem_append, List.mem_singleton]
          push_cast
          constructor
          · rintro ((h | h) | h)
            · exact Or.inl h
            · exact absurd h ht
            · right; omega
          · rintro (h | h)
            · exact Or.inl (Or.inl h)
            · right; omega
        · simp only [if_neg hz]
          push_cast
          constructor
          · rintro (h | h)
            · exact Or.inl h
            · right; omega
          · rintro (h | h)
            · exact Or.inl h
            · right; omega

theorem stepDeps_nodup : ∀ (ds : List Dependency) (deg : String → Int) (q : List String),
    q.Nodup → (∀ t ∈ q, deg t ≤ 0) → (stepDeps ds deg q).2.Nodup := by
  intro ds
  induction ds with
  | nil => intro deg q hq _; simpa [stepDeps] using hq
  | cons d ds ih =>
    intro deg q hq hle
    rcases hreq : d.required with _ | _
    · rw [stepDeps_cons_nreq hreq]; exact ih deg q hq hle
    · rw [stepDeps_cons_req hreq]
      by_cases hz : deg d.target - 1 = 0
      · rw [if_pos hz]
        have hnein : d.target ∉ q := fun hm => by
          have := hle _ hm
          omega
        apply ih
        · simp [List.nodup_append, hq, hnein]
        · intro t hm
          rcases List.mem_append.mp hm with h | h
          · by_cases ht : t = d.target
            · rw [if_pos ht]
              have := hle t h
              omega
            · rw [if_neg ht]; exact hle t h
          · simp only [List.mem_singleton] at h
            subst h
            rw [if_pos rfl]
            omega
      · rw [if_neg hz]
        apply ih _ _ hq
        intro t hm
        by_cases ht : t = d.target
        · rw [if_pos ht]
          have := hle t hm
          omega
        · rw [if_neg ht]; exact hle t hm

/-! ### The Kahn loop invariant -/

structure Inv (g : List Res) (q : List String) (deg : String → Int)
    (acc : List String) : Prop where
  nodup : (acc ++ q).Nodup
  degEq : ∀ k, deg k = initDeg g k - (edgesFrom g acc k : Int)
  nonpos : ∀ k ∈ acc ++ q, deg k ≤ 0
  prec : ∀ i : Fin acc.length, ∀ u, ReqEdge g u (acc.get i) → u ∈ acc.take i.val
  zeroIn : ∀ k ∈ nodeIds g, deg k = 0 → k ∈ acc ++ q
  domain : ∀ k ∈ acc ++ q, k ∈ allKeys g

theorem inv_deg_nonneg {g : List Res} {q : List String} {deg : String → Int}
    {acc : List String} (hInv : Inv g q deg acc) : ∀ k, 0 ≤ deg k := by
  intro k
  rw [hInv.degEq k, initDeg_eq]
  have := edgesFrom_le g acc k
  omega

theorem inv_sources {g : List Res} {q : List String} {deg : String → Int}
    {acc : List String} (hInv : Inv g q deg acc) {k : String} (hk : k ∈ acc ++ q)
    {u : String} (hu : ReqEdge g u k) : u ∈ acc := by
  have h0 : deg k = 0 := le_antisymm (hInv.nonpos k hk) (inv_deg_nonneg hInv k)
  have heq : edgesFrom g acc k = initDegN g k := by
    have := hInv.degEq k
    rw [initDeg_eq] at this
    omega
  obtain ⟨r, hr, hid, hcnt⟩ := reqEdge_count hu
  have := edgesFrom_eq_forall heq r hr hcnt
  rw [hid] at this
  simpa using this

theorem inv_step {g : List Res} (hWF : WF g) {c : String} {rest : List String}
    {deg : String → Int} {acc : List String} (hInv : Inv g (c :: rest) deg acc) :
    Inv g (stepDeps (depsOf g c) deg rest).2 (stepDeps (depsOf g c) deg rest).1
      (acc ++ [c]) := by
  have hmid := List.nodup_cons.mp (List.nodup_middle.mp hInv.nodup)
  have hcacc : c ∉ acc := fun h => hmid.1 (List.mem_append.mpr (Or.inl h))
  have hcrest : c ∉ rest := fun h => hmid.1 (List.mem_append.mpr (Or.inr h))
  have haccnodup : acc.Nodup := (List.nodup_append.mp hmid.2).1
  have hrestnodup : rest.Nodup := (List.nodup_append.mp hmid.2).2.1
  have hdisj : acc.Disjoint rest := (List.nodup_append.mp hmid.2).2.2
  have hdegk : ∀ k, (stepDeps (depsOf g c) deg rest).1 k
      = deg k - (reqCountD (depsOf g c) k : Int) := fun k => stepDeps_deg _ deg rest k
  have hq2mem : ∀ t, t ∈ (stepDeps (depsOf g c) deg rest).2 ↔
      (t ∈ rest ∨ (1 ≤ deg t ∧ deg t ≤ (reqCountD (depsOf g c) t : Int))) :=
    fun t => stepDeps_mem _ deg rest t
  have hnn : ∀ k, 0 ≤ deg k := inv_deg_nonneg hInv
  refine ⟨?_, ?_, ?_, ?_, ?_, ?_⟩
  · have hq2nodup : (stepDeps (depsOf g c) deg rest).2.Nodup :=
      stepDeps_nodup _ deg rest hrestnodup (fun t ht => hInv.nonpos t (by simp [ht]))
    rw [List.nodup_append]
    refine ⟨?_, hq2nodup, ?_⟩
    · rw [List.nodup_append]
      refine ⟨haccnodup, List.nodup_singleton c, ?_⟩
      intro a ha hb
      simp only [List.mem_singleton] at hb
      subst hb
      exact hcacc ha
    · intro a ha hb
      rcases (hq2mem a).mp hb with h | ⟨h1, h2⟩
      · rcases List.mem_append.mp ha with h2 | h2
        · exact hdisj h2 h
        · simp only [List.mem_singleton] at h2; subst h2; exact hcrest h
      · have hmem : a ∈ acc ++ c :: rest := by
          rcases List.mem_append.mp ha with h2 | h2
          · exact List.mem_append.mpr (Or.inl h2)
          · simp only [List.mem_singleton] at h2; subst h2; simp
        have := hInv.nonpos a hmem
        omega
  · intro k
    rw [hdegk k, hInv.degEq k, edgesFrom_append_one hWF hcacc k]
    push_cast
    ring
  · intro k hk
    rcases List.mem_append.mp hk with h | h
    · have hold : k ∈ acc ++ c :: rest := by
        rcases List.mem_append.mp h with h2 | h2
        · exact List.mem_append.mpr (Or.inl h2)
        · simp only [List.mem_singleton] at h2; subst h2; simp
      have h1 := hInv.nonpos k hold
      rw [hdegk k]
      omega
    · rcases (hq2mem k).mp h with h2 | ⟨h2, h3⟩
      · have h1 := hInv.nonpos k (by simp [h2])
        rw [hdegk k]
        omega
      · rw [hdegk k]
        omega
  · intro i u hu
    have hlen : (acc ++ [c]).length = acc.length + 1 := by simp
    by_cases hi : i.val < acc.length
    · have hget : (acc ++ [c]).get i = acc.get ⟨i.val, hi⟩ := by
        simp [List.get_eq_getElem, List.getElem_append_left hi]
      rw [hget] at hu
      have := hInv.prec ⟨i.val, hi⟩ u hu
      rwa [List.take_append_of_le_length (le_of_lt hi)]
    · have hieq : i.val = acc.length := by
        have h2 := i.isLt
        simp only [List.length_append, List.length_cons, List.length_nil] at h2
        omega
      have hget : (acc ++ [c]).get i = c := by
        simp only [List.get_eq_getElem]
        exact List.getElem_concat_length acc c i.val hieq _
      rw [hget] at hu
      have hsrc := inv_sources hInv (k := c) (by simp) hu
      rw [List.take_append_of_le_length (le_of_eq hieq), hieq, List.take_length]
      exact hsrc
  · intro k hk h0
    rw [hdegk k] at h0
    by_cases hdz : deg k = 0
    · have hold := hInv.zeroIn k hk hdz
      rcases (by simpa using hold : k ∈ acc ∨ k = c ∨ k ∈ rest) with h | h | h
      · exact List.mem_append.mpr (Or.inl (by simp [h]))
      · subst h; exact List.mem_append.mpr (Or.inl (by simp))
      · exact List.mem_append.mpr (Or.inr ((hq2mem k).mpr (Or.inl h)))
    · have h1 : 1 ≤ deg k := by
        have := hnn k
        omega
      have h2 : deg k ≤ (reqCountD (depsOf g c) k : Int) := by omega
      exact List.mem_append.mpr (Or.inr ((hq2mem k).mpr (Or.inr ⟨h1, h2⟩)))
  · intro k hk
    rcases List.mem_append.mp hk with h | h
    · apply hInv.domain
      rcases List.mem_append.mp h with h2 | h2
      · simp [h2]
      · simp only [List.mem_singleton] at h2; subst h2; simp
    · rcases (hq2mem k).mp h with h2 | ⟨h1, h2⟩
      · exact hInv.domain k (by simp [h2])
      · have hcnt : 1 ≤ reqCountD (depsOf g c) k := by omega
        unfold allKeys
        exact List.mem_append.mpr (Or.inr (mem_targetsReq_of_count hcnt))

theorem kahnRun_inv {g : List Res} (hWF : WF g) :
    ∀ (fuel : Nat) (q : List String) (deg : String → Int) (acc : List String),
      Inv g q deg acc →
      Inv g (kahnRun g fuel q deg acc).queue (kahnRun g fuel q deg acc).deg
        (kahnRun g fuel q deg acc).acc := by
  intro fuel
  induction fuel with
  | zero => intro q deg acc h; simpa [kahnRun] using h
  | succ fuel ih =>
    intro q deg acc h
    cases q with
    | nil => simpa [kahnRun] using h
    | cons c rest =>
      simp only [kahnRun]
      exact ih _ _ _ (inv_step hWF h)

theorem kahnRun_drain {g : List Res} (hWF : WF g) :
    ∀ (fuel : Nat) (q : List String) (deg : String → Int) (acc : List String),
      Inv g q deg acc → (allKeys g).length - acc.length ≤ fuel →
      (kahnRun g fuel q deg acc).queue = [] := by
  intro fuel
  induction fuel with
  | zero =>
    intro q deg acc hInv hle
    cases q with
    | nil => simp [kahnRun]
    | cons c rest =>
      exfalso
      have hsub : (acc ++ c :: rest) ⊆ allKeys g := fun k hk => hInv.domain k hk
      have hsp := (hInv.nodup.subperm hsub).length_le
      simp only [List.length_append, List.length_cons] at hsp
      omega
  | succ fuel ih =>
    intro q deg acc hInv hle
    cases q with
    | nil => simp [kahnRun]
    | cons c rest =>
      have hsub : (acc ++ c :: rest) ⊆ allKeys g := fun k hk => hInv.domain k hk
      have hsp := (hInv.nodup.subperm hsub).length_le
      simp only [List.length_append, List.length_cons] at hsp
      simp only [kahnRun]
      apply ih _ _ _ (inv_step hWF hInv)
      simp only [List.length_append, List.length_cons, List.length_nil]
      omega

theorem inv_init {g : List Res} (hWF : WF g) : Inv g (initQueue g) (initDeg g) [] := by
  refine ⟨?_, ?_, ?_, ?_, ?_, ?_⟩
  · simpa [initQueue] using hWF.filter _
  · intro k
    rw [edgesFrom_nil]
    simp
  · intro k hk
    simp only [List.nil_append, initQueue, List.mem_filter, beq_iff_eq] at hk
    omega
  · intro i
    exact absurd i.isLt (by simp)
  · intro k hk h0
    simp only [List.nil_append, initQueue, List.mem_filter, beq_iff_eq]
    exact ⟨hk, h0⟩
  · intro k hk
    simp only [List.nil_append, initQueue, List.mem_filter] at hk
    unfold allKeys
    exact List.mem_append.mpr (Or.inl hk.1)

theorem sortState_inv {g : List Res} (hWF : WF g) :
    Inv g (sortState g).queue (sortState g).deg (sortState g).acc :=
  kahnRun_inv hWF _ _ _ _ (inv_init hWF)

theorem sortState_queue_nil {g : List Res} (hWF : WF g) : (sortState g).queue = [] :=
  kahnRun_drain hWF _ _ _ _ (inv_init hWF) (by simp)

/-! ### Consequences for the sort -/

theorem topologicalSort_eq_some {g : List Res} {r : List String}
    (h : topologicalSort g = some r) :
    r = (sortState g).acc ∧ (sortState g).acc.length = g.length := by
  unfold topologicalSort at h
  by_cases hc : (sortState g).acc.length = g.length
  · rw [if_pos hc] at h
    exact ⟨(Option.some.inj h).symm, hc⟩
  · rw [if_neg hc] at h
    exact absurd h (by simp)

theorem sort_facts {g : List Res} (hWF : WF g) {r : List String}
    (h : topologicalSort g = some r) :
    r.Nodup ∧ (∀ i : Fin r.length, ∀ u, ReqEdge g u (r.get i) → u ∈ r.take i.val)
      ∧ (∀ k ∈ r, k ∈ allKeys g) ∧ r.length = g.length := by
  obtain ⟨hr, hlen⟩ := topologicalSort_eq_some h
  subst hr
  have hInv := sortState_inv hWF
  have hq := sortState_queue_nil hWF
  refine ⟨?_, hInv.prec, ?_, hlen⟩
  · have := hInv.nodup
    rw [hq] at this
    simpa using this
  · intro k hk
    exact hInv.domain k (by rw [hq]; simpa using hk)

theorem sort_perm {g : List Res} (hWF : WF g) (hT : TargetsExist g) {r : List String}
    (h : topologicalSort g = some r) : r.Perm (nodeIds g) := by
  obtain ⟨hnd, -, hdom, hlen⟩ := sort_facts hWF h
  have hsub : r ⊆ nodeIds g := fun k hk => allKeys_subset hT k (hdom k hk)
  apply (hnd.subperm hsub).perm_of_length_le
  have : (nodeIds g).length = g.length := by simp [nodeIds]
  omega

theorem sort_pos_prec {g : List Res} (hWF : WF g) {r : List String}
    (h : topologicalSort g = some r) {u v : String} (he : ReqEdge g u v)
    (hv : v ∈ r) : u ∈ r ∧ posOf r u < posOf r v := by
  obtain ⟨hnd, hprec, -, -⟩ := sort_facts hWF h
  obtain ⟨n, hn⟩ := List.mem_iff_get.mp hv
  have hu := hprec n u (by rw [hn]; exact he)
  refine ⟨List.mem_of_mem_take hu, ?_⟩
  have h1 : posOf r u < n.val := posOf_lt_of_mem_take hu
  have h2 : posOf r v = n.val := by
    rw [← hn]
    exact posOf_get_of_nodup hnd n.isLt
  omega

theorem sort_before {g : List Res} (hWF : WF g) {r : List String}
    (h : topologicalSort g = some r) {u v : String} (he : ReqEdge g u v)
    (hv : v ∈ r) : Before r u v := by
  obtain ⟨hnd, hprec, -, -⟩ := sort_facts hWF h
  obtain ⟨n, hn⟩ := List.mem_iff_get.mp hv
  have hu := hprec n u (by rw [hn]; exact he)
  obtain ⟨i, hi, hgi⟩ := mem_take_get hu
  exact ⟨i, n, hi, hgi, hn⟩

/-! ### Cycles -/

theorem chain_lt {g : List Res} (m : String → Nat)
    (hm : ∀ u v, ReqEdge g u v → m u < m v) :
    ∀ (rest : List String) (a b : String), chainB g a (rest ++ [b]) = true → m a < m b := by
  intro rest
  induction rest with
  | nil =>
    intro a b hc
    simp only [List.nil_append, chainB, Bool.and_eq_true] at hc
    exact hm a b hc.1
  | cons x rest ih =>
    intro a b hc
    simp only [List.cons_append, chainB, Bool.and_eq_true] at hc
    exact lt_trans (hm a x hc.1) (ih x b hc.2)

theorem acyclic_of_rank {g : List Res} (m : String → Nat)
    (hm : ∀ u v, ReqEdge g u v → m u < m v) : Acyclic g := by
  intro l hc
  cases l with
  | nil => simp [IsReqCycle, isReqCycleB] at hc
  | cons v rest =>
    have hcb : chainB g v (rest ++ [v]) = true := hc
    have : m v < m v := chain_lt m hm rest v v hcb
    omega

theorem sort_edge_pos {g : List Res} (hWF : WF g) (hT : TargetsExist g)
    {r : List String} (h : topologicalSort g = some r) :
    ∀ u v, ReqEdge g u v → posOf r u < posOf r v := by
  intro u v he
  have hv : v ∈ r := (sort_perm hWF hT h).mem_iff.mpr (reqEdge_tgt_mem hT he)
  exact (sort_pos_prec hWF h he hv).2

theorem sort_none_of_cycle_aux {g : List Res} (hWF : WF g) (hT : TargetsExist g)
    {l : List String} (hc : IsReqCycle g l) : topologicalSort g = none := by
  rcases hs : topologicalSort g with _ | r
  · rfl
  · exact absurd hc (acyclic_of_rank (posOf r) (sort_edge_pos hWF hT hs) l)

theorem chainB_desc {g : List Res} {vals : Nat → String}
    (hstep : ∀ n, ReqEdge g (vals (n + 1)) (vals n)) (s : Nat) :
    ∀ (k : Nat) (tail : List String), chainB g (vals s) tail = true →
      chainB g (vals (s + k)) (descL vals s k ++ tail) = true := by
  intro k
  induction k with
  | zero =>
    intro tail h
    simpa [descL] using h
  | succ k ih =>
    intro tail h
    have hlist : descL vals s (k + 1) ++ tail = vals (s + k) :: (descL vals s k ++ tail) := by
      simp [descL]
    rw [hlist]
    show chainB g (vals (s + (k + 1))) (vals (s + k) :: (descL vals s k ++ tail)) = true
    simp only [chainB, Bool.and_eq_true]
    exact ⟨hstep (s + k), ih tail h⟩

theorem cycle_construct {g : List Res} (vals : Nat → String)
    (hstep : ∀ n, ReqEdge g (vals (n + 1)) (vals n))
    {i j : Nat} (hij : i < j) (heq : vals i = vals j) : ∃ l, IsReqCycle g l := by
  refine ⟨vals (j - 1) :: descL vals i (j - 1 - i), ?_⟩
  show chainB g (vals (j - 1)) (descL vals i (j - 1 - i) ++ [vals (j - 1)]) = true
  have hedge : ReqEdge g (vals i) (vals (j - 1)) := by
    rw [heq]
    obtain ⟨n, hn⟩ : ∃ n, j = n + 1 := ⟨j - 1, by omega⟩
    subst hn
    simpa using hstep n
  have hbase : chainB g (vals i) [vals (j - 1)] = true := by
    simp only [chainB, Bool.and_eq_true]
    exact ⟨hedge, trivial⟩
  have := chainB_desc hstep i (j - 1 - i) [vals (j - 1)] hbase
  rwa [show i + (j - 1 - i) = j - 1 from by omega] at this

theorem cycle_of_closed {g : List Res} {U : List String} (hne : U ≠ [])
    (hcl : ∀ u ∈ U, ∃ w ∈ U, ReqEdge g w u) : ∃ l, IsReqCycle g l := by
  have hex : ∀ u : {x // x ∈ U}, ∃ w : {x // x ∈ U}, ReqEdge g w.val u.val := by
    rintro ⟨u, hu⟩
    obtain ⟨w, hw, he⟩ := hcl u hu
    exact ⟨⟨w, hw⟩, he⟩
  choose F hF using hex
  obtain ⟨a, ha⟩ : ∃ a, a ∈ U := by
    cases U with
    | nil => exact absurd rfl hne
    | cons x xs => exact ⟨x, by simp⟩
  have hstep : ∀ n, ReqEdge g ((F^[n + 1] ⟨a, ha⟩).val) ((F^[n] ⟨a, ha⟩).val) := by
    intro n
    rw [Function.iterate_succ_apply' F n ⟨a, ha⟩]
    exact hF (F^[n] ⟨a, ha⟩)
  have hmaps : ∀ n ∈ Finset.range (U.length + 1),
      (F^[n] ⟨a, ha⟩).val ∈ U.toFinset := by
    intro n _
    simp only [List.mem_toFinset]
    exact (F^[n] ⟨a, ha⟩).prop
  have hcard : U.toFinset.card < (Finset.range (U.length + 1)).card := by
    have := U.toFinset_card_le
    simp only [Finset.card_range]
    omega
  obtain ⟨i, hi, j, hj, hij, heq⟩ :=
    Finset.exists_ne_map_eq_of_card_lt_of_maps_to hcard hmaps
  rcases Nat.lt_or_ge i j with hlt | hge
  · exact cycle_construct (fun n => (F^[n] ⟨a, ha⟩).val) hstep hlt heq
  · have hlt : j < i := by omega
    exact cycle_construct (fun n => (F^[n] ⟨a, ha⟩).val) hstep hlt heq.symm

/-! ### Completeness: acyclic graphs with existing targets sort fully -/

theorem sort_some_of_acyclic {g : List Res} (hWF : WF g) (hT : TargetsExist g)
    (hA : Acyclic g) :
    topologicalSort g = some (sortState g).acc ∧ (sortState g).acc.Perm (nodeIds g) := by
  have hInv := sortState_inv hWF
  have hq := sortState_queue_nil hWF
  have hcover : ∀ k ∈ nodeIds g, k ∈ (sortState g).acc := by
    by_contra hc
    push_neg at hc
    obtain ⟨k0, hk0, hk0n⟩ := hc
    have hUmem : ∀ k, k ∈ (nodeIds g).filter (fun k => !((sortState g).acc.contains k)) ↔
        (k ∈ nodeIds g ∧ k ∉ (sortState g).acc) := by
      intro k
      simp [List.mem_filter]
    have hne : (nodeIds g).filter (fun k => !((sortState g).acc.contains k)) ≠ [] := by
      intro hnil
      have := (hUmem k0).mpr ⟨hk0, hk0n⟩
      rw [hnil] at this
      simp at this
    have hcl : ∀ u ∈ (nodeIds g).filter (fun k => !((sortState g).acc.contains k)),
        ∃ w ∈ (nodeIds g).filter (fun k => !((sortState g).acc.contains k)), ReqEdge g w u := by
      intro u hu
      obtain ⟨hun, hua⟩ := (hUmem u).mp hu
      have hnz : (sortState g).deg u ≠ 0 := by
        intro h0
        have hmem := hInv.zeroIn u hun h0
        rw [hq] at hmem
        simp only [List.append_nil] at hmem
        exact hua hmem
      have hge : 1 ≤ (sortState g).deg u := by
        have := inv_deg_nonneg hInv u
        omega
      have hlt : edgesFrom g (sortState g).acc u < initDegN g u := by
        have := hInv.degEq u
        rw [initDeg_eq] at this
        omega
      obtain ⟨r, hr, hrc, hcnt⟩ := edgesFrom_lt_exists hlt
      refine ⟨r.id, (hUmem r.id).mpr ⟨List.mem_map_of_mem _ hr, by simpa using hrc⟩,
        reqEdge_of_count hr hcnt⟩
    obtain ⟨l, hl⟩ := cycle_of_closed hne hcl
    exact hA l hl
  have hnd : (sortState g).acc.Nodup := by
    have := hInv.nodup
    rw [hq] at this
    simpa using this
  have hsub : (sortState g).acc ⊆ nodeIds g := by
    intro k hk
    apply allKeys_subset hT
    exact hInv.domain k (by rw [hq]; simpa using hk)
  have hperm : (sortState g).acc.Perm (nodeIds g) := by
    have h1 : List.Subperm (sortState g).acc (nodeIds g) := hnd.subperm hsub
    have hndg : (nodeIds g).Nodup := hWF
    have h2 : List.Subperm (nodeIds g) (sortState g).acc :=
      hndg.subperm (fun k hk => hcover k hk)
    exact h1.antisymm h2
  refine ⟨?_, hperm⟩
  unfold topologicalSort
  rw [if_pos]
  rw [hperm.length_eq]
  simp [nodeIds]

/-! ### Planner lemmas -/

theorem planResource_id (s : Store) (r : Res) : (planResource s r).resourceId = r.id := by
  unfold planResource
  cases hl : lookupState s r.id with
  | none => rfl
  | some st =>
    by_cases h : detectDrift s r = true <;> simp [h]

theorem planResource_cases (s : Store) (r : Res) :
    (planResource s r).changes = [] ∧ (planResource s r).type ≠ AType.delete ∧
    (lookupState s r.id = none →
      planResource s r = ⟨r.id, AType.create, [], "resource not in state"⟩) ∧
    (∀ st, lookupState s r.id = some st → detectDrift s r = true →
      planResource s r = ⟨r.id, AType.update, [], "configuration drift detected"⟩) ∧
    (∀ st, lookupState s r.id = some st → detectDrift s r = false →
      planResource s r = ⟨r.id, AType.noop, [], "resource up to date"⟩) := by
  unfold planResource
  cases hl : lookupState s r.id with
  | none =>
    refine ⟨rfl, by simp, fun _ => rfl, by simp, by simp⟩
  | some st =>
    rcases h : detectDrift s r with _ | _
    · simp only [h, Bool.false_eq_true, if_false]
      refine ⟨by simp, by simp, by simp, ?_, by simp⟩
      intro st2 _ hdt
      exact absurd hdt (by simp)
    · simp only [h, if_true]
      refine ⟨by simp, by simp, by simp, by simp, ?_⟩
      intro st2 _ hdf
      exact absurd hdf (by simp)

theorem planActions_eq_map {g : List Res} (s : Store) :
    ∀ order : List String, (∀ i ∈ order, i ∈ nodeIds g) →
      planActions g s order = some (order.map (fun i => planResource s (resAt g i))) := by
  intro order
  induction order with
  | nil => intro _; simp [planActions]
  | cons i rest ih =>
    intro hmem
    obtain ⟨r, hr⟩ := getResource_isSome_of_mem (hmem i (by simp))
    unfold planActions
    rw [hr, ih (fun k hk => hmem k (by simp [hk]))]
    simp [resAt, hr]

theorem plan_eq_of_sort {g : List Res} {s : Store} {order : List String}
    (hs : topologicalSort g = some order) (hmem : ∀ i ∈ order, i ∈ nodeIds g) :
    plan g s = some (order.map (fun i => planResource s (resAt g i))) := by
  unfold plan
  rw [hs]
  exact planActions_eq_map s order hmem

/-! ### Validation lemmas -/

theorem scanDeps_ind {g : List Res} {r : Res} :
    ∀ ds : List Dependency,
      (∀ d ∈ ds, d.required = true → ∃ tr, getResource g d.target = some tr) →
      ((∃ d ∈ ds, d.required = true ∧
          ∃ tr, getResource g d.target = some tr ∧ r.layer < tr.layer) →
        ∃ fl tl, scanDeps g r ds = some (VErr.layerViolation r.id fl tl)) ∧
      ((∀ d ∈ ds, d.required = true →
          ∀ tr, getResource g d.target = some tr → ¬(r.layer < tr.layer)) →
        scanDeps g r ds = none) := by
  intro ds
  induction ds with
  | nil =>
    intro _
    constructor
    · rintro ⟨d, hd, -⟩
      simp at hd
    · intro _
      rfl
  | cons d ds ih =>
    intro hex
    rcases hreq : d.required with _ | _
    · have hstep : scanDeps g r (d :: ds) = scanDeps g r ds := by
        simp [scanDeps, hreq]
      have := ih (fun d2 hd2 => hex d2 (by simp [hd2]))
      rw [hstep]
      constructor
      · rintro ⟨d2, hd2, hr2, htr⟩
        rcases List.mem_cons.mp hd2 with he | hm
        · subst he
          rw [hreq] at hr2
          simp at hr2
        · exact this.1 ⟨d2, hm, hr2, htr⟩
      · intro hok
        exact this.2 fun d2 hd2 => hok d2 (List.mem_cons_of_mem _ hd2)
    · obtain ⟨tr, htr⟩ := hex d (by simp) hreq
      by_cases hv : r.layer < tr.layer
      · have hstep : scanDeps g r (d :: ds) =
            some (VErr.layerViolation r.id r.layer tr.layer) := by
          simp [scanDeps, hreq, htr, validateLayerDependency, hv]
        constructor
        · intro _
          exact ⟨r.layer, tr.layer, hstep⟩
        · intro hok
          exact absurd hv (hok d (by simp) hreq tr htr)
      · have hstep : scanDeps g r (d :: ds) = scanDeps g r ds := by
          simp [scanDeps, hreq, htr, validateLayerDependency, hv]
        have := ih (fun d2 hd2 => hex d2 (by simp [hd2]))
        rw [hstep]
        constructor
        · rintro ⟨d2, hd2, hr2, tr2, htr2, hlt2⟩
          rcases List.mem_cons.mp hd2 with he | hm
          · subst he
            rw [htr] at htr2
            have : tr = tr2 := by injection htr2
            subst this
            exact absurd hlt2 hv
          · exact this.1 ⟨d2, hm, hr2, tr2, htr2, hlt2⟩
        · intro hok
          exact this.2 fun d2 hd2 => hok d2 (List.mem_cons_of_mem _ hd2)

theorem scanDeps_spec {g : List Res} (hT : TargetsExist g) {r : Res} (hr : r ∈ g) :
    (LayerViol g r → ∃ fl tl, scanDeps g r r.deps = some (VErr.layerViolation r.id fl tl))
    ∧ (¬LayerViol g r → scanDeps g r r.deps = none) := by
  have hex : ∀ d ∈ r.deps, d.required = true → ∃ tr, getResource g d.target = some tr :=
    fun d hd hreq => getResource_isSome_of_mem (hT r hr d hd hreq)
  have := scanDeps_ind (g := g) (r := r) r.deps hex
  constructor
  · intro hv
    exact this.1 hv
  · intro hnv
    apply this.2
    intro d hd hreq tr htr hlt
    exact hnv ⟨d, hd, hreq, tr, htr, hlt⟩

theorem validateScan_result {g : List Res} : ∀ l : List Res,
    (∀ r ∈ l,
      (LayerViol g r → ∃ fl tl, scanDeps g r r.deps = some (VErr.layerViolation r.id fl tl))
      ∧ (¬LayerViol g r → scanDeps g r r.deps = none)) →
    ((∀ r ∈ l, ¬LayerViol g r) → validateScan g l = none) ∧
    ((∃ r ∈ l, LayerViol g r) → ∃ u fl tl,
      validateScan g l = some (VErr.layerViolation u fl tl) ∧
      ∃ r ∈ l, r.id = u ∧ LayerViol g r) := by
  intro l
  induction l with
  | nil =>
    intro _
    constructor
    · intro _; rfl
    · rintro ⟨r, hr, -⟩; simp at hr
  | cons r l ih =>
    intro hspec
    have hr := hspec r (by simp)
    have ihl := ih (fun r2 h2 => hspec r2 (List.mem_cons_of_mem _ h2))
    by_cases hv : LayerViol g r
    · obtain ⟨fl, tl, hscan⟩ := hr.1 hv
      have hstep : validateScan g (r :: l) = some (VErr.layerViolation r.id fl tl) := by
        simp [validateScan, hscan]
      constructor
      · intro hok
        exact absurd hv (hok r (by simp))
      · intro _
        exact ⟨r.id, fl, tl, hstep, r, by simp, rfl, hv⟩
    · have hscan := hr.2 hv
      have hstep : validateScan g (r :: l) = validateScan g l := by
        simp [validateScan, hscan]
      rw [hstep]
      constructor
      · intro hok
        exact ihl.1 fun r2 h2 => hok r2 (List.mem_cons_of_mem _ h2)
      · rintro ⟨r2, hr2, hv2⟩
        rcases List.mem_cons.mp hr2 with he | hm
        · subst he
          exact absurd hv2 hv
        · obtain ⟨u, fl, tl, hres, r3, hr3, hid3, hv3⟩ := ihl.2 ⟨r2, hm, hv2⟩
          exact ⟨u, fl, tl, hres, r3, List.mem_cons_of_mem _ hr3, hid3, hv3⟩

/-! ### State-store lemmas -/

theorem lookupState_setState_self (s : Store) (i : String) (v : RState) :
    lookupState (setState s i v) i = some v := by
  induction s with
  | nil => simp [setState, lookupState]
  | cons e rest ih =>
    obtain ⟨k, w⟩ := e
    by_cases h : k = i
    · simp [setState, h, lookupState]
    · simp only [setState, if_neg h]
      have : lookupState ((k, w) :: setState rest i v) i =
          lookupState (setState rest i v) i := by
        simp [lookupState, List.find?_cons_of_neg, h]
      rw [this, ih]

/-! ### Cleanup lemmas -/

theorem foldl_removeState : ∀ (ids : List String) (s : Store),
    ids.foldl removeState s = s.filter (fun e => !(ids.contains e.1)) := by
  intro ids
  induction ids with
  | nil =>
    intro s
    simp [List.filter_eq_self]
  | cons i ids ih =>
    intro s
    rw [List.foldl_cons, ih]
    unfold removeState
    rw [List.filter_filter]
    apply List.filter_congr
    intro e _
    simp only [List.contains_cons, Bool.not_or, Bool.and_comm]

theorem cleanup_eq (g : List Res) (s : Store) :
    cleanup g s =
      (((s.map (fun e => e.1)).filter (fun i => !((nodeIds g).contains i))).foldl
        removeState s,
       decide (0 < ((s.map (fun e => e.1)).filter
        (fun i => !((nodeIds g).contains i))).length)) := rfl

theorem cleanup_store (g : List Res) (s : Store) :
    (cleanup g s).1 = s.filter (fun e => (nodeIds g).contains e.1) := by
  rw [cleanup_eq]
  simp only []
  rw [foldl_removeState]
  apply List.filter_congr
  intro e he
  have hmem : e.1 ∈ s.map (fun e => e.1) := List.mem_map_of_mem _ he
  by_cases hg : e.1 ∈ nodeIds g
  · simp [List.mem_filter, hg]
  · simp [List.mem_filter, hg, hmem]

theorem cleanup_saved (g : List Res) (s : Store) :
    ((cleanup g s).2 = true ↔ ∃ e ∈ s, e.1 ∉ nodeIds g) := by
  rw [cleanup_eq]
  simp only [decide_eq_true_eq]
  rw [List.length_pos, Ne, List.filter_eq_nil_iff]
  push_neg
  constructor
  · rintro ⟨x, hx, hc⟩
    obtain ⟨e, he, rfl⟩ := List.mem_map.mp hx
    refine ⟨e, he, ?_⟩
    simpa using hc
  · rintro ⟨e, he, hx⟩
    refine ⟨e.1, List.mem_map_of_mem _ he, ?_⟩
    simpa using hx

/-! ### Permutation transport (two iteration orders of the same node map) -/

theorem nodeIds_perm {g1 g2 : List Res} (h : g1.Perm g2) :
    (nodeIds g1).Perm (nodeIds g2) := h.map _

theorem WF_perm {g1 g2 : List Res} (h : g1.Perm g2) (hWF : WF g1) : WF g2 :=
  ((nodeIds_perm h).nodup_iff).mp hWF

theorem reqEdge_perm {g1 g2 : List Res} (h : g1.Perm g2) (u v : String) :
    ReqEdge g1 u v ↔ ReqEdge g2 u v := by
  unfold ReqEdge reqEdgeB
  simp only [List.any_eq_true]
  constructor
  · rintro ⟨r, hr, hp⟩
    exact ⟨r, h.mem_iff.mp hr, hp⟩
  · rintro ⟨r, hr, hp⟩
    exact ⟨r, h.mem_iff.mpr hr, hp⟩

theorem targetsExist_perm {g1 g2 : List Res} (h : g1.Perm g2) (hT : TargetsExist g1) :
    TargetsExist g2 := fun r hr d hd hreq =>
  ((nodeIds_perm h).mem_iff).mp (hT r (h.mem_iff.mpr hr) d hd hreq)

theorem chainB_perm {g1 g2 : List Res} (h : g1.Perm g2) :
    ∀ (l : List String) (a : String), chainB g1 a l = chainB g2 a l := by
  intro l
  induction l with
  | nil => intro a; rfl
  | cons b l ih =>
    intro a
    simp only [chainB]
    rw [ih b]
    congr 1
    exact Bool.eq_iff_iff.mpr (reqEdge_perm h a b)

theorem acyclic_perm {g1 g2 : List Res} (h : g1.Perm g2) (hA : Acyclic g1) :
    Acyclic g2 := by
  intro l hc
  apply hA l
  cases l with
  | nil => simp [IsReqCycle, isReqCycleB] at hc
  | cons v rest =>
    show chainB g1 v (rest ++ [v]) = true
    rw [chainB_perm h]
    exact hc

theorem getResource_perm {g1 g2 : List Res} (hWF1 : WF g1) (hperm : g1.Perm g2)
    (i : String) : getResource g1 i = getResource g2 i := by
  rcases h1 : getResource g1 i with _ | r1 <;> rcases h2 : getResource g2 i with _ | r2
  · rfl
  · exfalso
    obtain ⟨hm, hid⟩ := getResource_mem h2
    obtain ⟨r, hr⟩ := getResource_isSome_of_mem
      (hid ▸ List.mem_map_of_mem (fun r => r.id) (hperm.mem_iff.mpr hm) : i ∈ nodeIds g1)
    rw [h1] at hr
    exact Option.noConfusion hr
  · exfalso
    obtain ⟨hm, hid⟩ := getResource_mem h1
    obtain ⟨r, hr⟩ := getResource_isSome_of_mem
      (hid ▸ List.mem_map_of_mem (fun r => r.id) (hperm.mem_iff.mp hm) : i ∈ nodeIds g2)
    rw [h2] at hr
    exact Option.noConfusion hr
  · obtain ⟨hm1, hid1⟩ := getResource_mem h1
    obtain ⟨hm2, hid2⟩ := getResource_mem h2
    rw [wf_unique hWF1 r1 hm1 r2 (hperm.mem_iff.mpr hm2) (by rw [hid1, hid2])]

/-! ### Concrete graphs for the counterexamples and witnesses -/

/-- A single node whose required dependency targets an id that is not in
the node set. -/
def gMissing : List Res := [⟨"a", "t", 0, [⟨"x", "depends_on", true⟩], []⟩]

/-- Two nodes, one required edge `a` depends on `b`; acyclic and all
targets exist. -/
def gW1 : List Res :=
  [⟨"a", "t", 0, [⟨"b", "depends_on", true⟩], []⟩, ⟨"b", "t", 0, [], []⟩]

/-- A required cycle `a` and `b` plus two nodes whose required edges
target phantom ids `x` and `y`. -/
def g4 : List Res :=
  [⟨"a", "t", 0, [⟨"b", "depends_on", true⟩], []⟩,
   ⟨"b", "t", 0, [⟨"a", "depends_on", true⟩], []⟩,
   ⟨"c", "t", 0, [⟨"x", "depends_on", true⟩], []⟩,
   ⟨"d", "t", 0, [⟨"y", "depends_on", true⟩], []⟩]

/-- A two-node required cycle with all targets present. -/
def gCyc : List Res :=
  [⟨"a", "t", 0, [⟨"b", "depends_on", true⟩], []⟩,
   ⟨"b", "t", 0, [⟨"a", "depends_on", true⟩], []⟩]

theorem gMissing_acyclic : Acyclic gMissing := by
  apply acyclic_of_rank (fun s => if s = "x" then 1 else 0)
  intro u v h
  unfold ReqEdge reqEdgeB gMissing at h
  simp only [List.any_cons, List.any_nil, Bool.or_false, Bool.and_eq_true,
    beq_iff_eq, true_and] at h
  obtain ⟨hu, hv⟩ := h
  subst hu
  subst hv
  simp

theorem gW1_acyclic : Acyclic gW1 := by
  apply acyclic_of_rank (fun s => if s = "b" then 1 else 0)
  intro u v h
  unfold ReqEdge reqEdgeB gW1 at h
  simp only [List.any_cons, List.any_nil, Bool.or_false, Bool.and_eq_true,
    beq_iff_eq, true_and, Bool.and_false, Bool.false_or, Bool.or_false] at h
  obtain ⟨hu, hv⟩ := h
  subst hu
  subst hv
  simp

/-! ### Claims C2, C3, C4 -/

/-- C2 (amended): for every well-formed graph whose required edges are
acyclic AND whose required-edge targets all exist as nodes,
`TopologicalSort` succeeds and returns a permutation of all node ids,
of length equal to the node count.  (The claim as stated, which also
covers graphs with a required edge to a missing id, is refuted by
`c2_counterexample`.) -/
theorem c2_sort_acyclic_perm {g : List Res} (hWF : WF g) (hT : TargetsExist g)
    (hA : Acyclic g) :
    ∃ r, topologicalSort g = some r ∧ r.length = g.length ∧ r.Perm (nodeIds g) := by
  obtain ⟨hs, hp⟩ := sort_some_of_acyclic hWF hT hA
  refine ⟨_, hs, ?_, hp⟩
  rw [hp.length_eq]
  simp [nodeIds]

/-- C2 counterexample: `gMissing` has an acyclic required subgraph (its one
required edge targets the absent id "x"), yet `TopologicalSort` returns the
cycle error instead of a permutation of the node ids: the phantom target is
dequeued into the result, the emitted length is 2 while the node count is
1, and the length check fails. -/
theorem c2_counterexample : Acyclic gMissing ∧ topologicalSort gMissing = none :=
  ⟨gMissing_acyclic, by decide⟩

/-- C2 witness. -/
theorem c2_witness :
    WF gW1 ∧ TargetsExist gW1 ∧ Acyclic gW1 ∧
      ∃ r, topologicalSort gW1 = some r ∧ r.length = gW1.length ∧
        r.Perm (nodeIds gW1) :=
  ⟨by decide, by decide, gW1_acyclic,
    c2_sort_acyclic_perm (by decide) (by decide) gW1_acyclic⟩

/-- C3 (amended): when every required-edge target exists as a node, a
successful `TopologicalSort` places the dependent strictly before its
required dependency: for a required edge "A depends_on B" with A and B in
the node set, A appears strictly before B in the result.  (As stated,
without the existing-targets condition, the claim is refuted by
`c3_counterexample`: the sort can succeed while omitting A and B
entirely.) -/
theorem c3_dependent_precedes {g : List Res} (hWF : WF g) (hT : TargetsExist g)
    {r : List String} (hs : topologicalSort g = some r) {A B : String}
    (hAB : ReqEdge g A B) (_hA : A ∈ nodeIds g) (hB : B ∈ nodeIds g) :
    Before r A B := by
  have hBr : B ∈ r := (sort_perm hWF hT hs).mem_iff.mpr hB
  exact sort_before hWF hs hAB hBr

/-- C3 counterexample: on `g4` the sort succeeds with result
`[c, d, x, y]`, the required edge "a depends_on b" has both endpoints in
the node set, yet "a" does not appear before "b" — neither appears at
all. -/
theorem c3_counterexample :
    topologicalSort g4 = some ["c", "d", "x", "y"] ∧ ReqEdge g4 "a" "b" ∧
      "a" ∈ nodeIds g4 ∧ "b" ∈ nodeIds g4 ∧
      ¬ Before ["c", "d", "x", "y"] "a" "b" := by decide

/-- C3 witness. -/
theorem c3_witness :
    WF gW1 ∧ TargetsExist gW1 ∧ topologicalSort gW1 = some ["a", "b"] ∧
      ReqEdge gW1 "a" "b" ∧ "a" ∈ nodeIds gW1 ∧ "b" ∈ nodeIds gW1 ∧
      Before ["a", "b"] "a" "b" :=
  ⟨by decide, by decide, by decide, by decide, by decide, by decide,
    c3_dependent_precedes (g := gW1) (r := ["a", "b"]) (A := "a") (B := "b")
      (by decide) (by decide) (by decide) (by decide) (by decide) (by decide)⟩

/-- C4 (amended): for every well-formed graph whose required-edge targets
all exist as nodes, if the required subgraph contains a cycle then
`TopologicalSort` returns an error and no result (`none` models Go's nil
slice plus error).  (As stated, without the existing-targets condition,
the claim is refuted by `c4_counterexample`: phantom targets can pad the
emitted list up to the node count and the sort then succeeds despite the
cycle.) -/
theorem c4_cycle_error {g : List Res} (hWF : WF g) (hT : TargetsExist g)
    {l : List String} (hc : IsReqCycle g l) : topologicalSort g = none :=
  sort_none_of_cycle_aux hWF hT hc

/-- C4 counterexample: `g4` contains the required cycle a-b, yet
`TopologicalSort` succeeds, returning `[c, d, x, y]` — two phantom ids in
place of the two cycle members. -/
theorem c4_counterexample :
    IsReqCycle g4 ["a", "b"] ∧ topologicalSort g4 = some ["c", "d", "x", "y"] := by
  decide

/-- C4 witness. -/
theorem c4_witness :
    WF gCyc ∧ TargetsExist gCyc ∧ IsReqCycle gCyc ["a", "b"] ∧
      topologicalSort gCyc = none :=
  ⟨by decide, by decide, by decide,
    c4_cycle_error (g := gCyc) (l := ["a", "b"]) (by decide) (by decide) (by decide)⟩

/-! ### Claim C5 -/

/-- C5: `DetectDrift(r)` returns false iff `r` has a state entry whose
metadata holds a "config" snapshot and the marshalled current
configuration equals the marshalled snapshot; it returns true when no
state entry or no "config" snapshot exists; and immediately after
`MarkApplied(r)` with unchanged configuration it returns false. -/
theorem c5_detectDrift_spec (s : Store) (r : Res) :
    ((detectDrift s r = false) ↔ ∃ st, lookupState s r.id = some st ∧
      ∃ v, lookupMeta st.metadata "config" = some v ∧
        marshalConfig r.config = marshalMeta v)
    ∧ (lookupState s r.id = none → detectDrift s r = true)
    ∧ (∀ st, lookupState s r.id = some st → lookupMeta st.metadata "config" = none →
        detectDrift s r = true)
    ∧ detectDrift (markApplied s r) r = false := by
  refine ⟨?_, ?_, ?_, ?_⟩
  · unfold detectDrift
    cases hl : lookupState s r.id with
    | none => simp
    | some st =>
      simp only []
      cases hm : lookupMeta st.metadata "config" with
      | none => simp [hm]
      | some v =>
        simp only []
        rw [bne_eq_false_iff_eq]
        constructor
        · intro h
          exact ⟨st, rfl, v, hm, h⟩
        · rintro ⟨st2, hst2, v2, hv2, heq⟩
          injection hst2 with hst2
          subst hst2
          rw [hm] at hv2
          injection hv2 with hv2
          subst hv2
          exact heq
  · intro h
    unfold detectDrift
    rw [h]
  · intro st hst hm
    unfold detectDrift
    rw [hst]
    simp [hm]
  · unfold detectDrift markApplied
    rw [lookupState_setState_self]
    simp only []
    have hm : lookupMeta [("config", MetaVal.cfg r.config)] "config" =
        some (MetaVal.cfg r.config) := by
      simp [lookupMeta]
    rw [hm]
    simp [marshalConfig, marshalMeta]

/-- A concrete resource for the C5 witness. -/
def resW : Res := ⟨"w", "t", 0, [], [("key", "value")]⟩

/-- C5 witness. -/
theorem c5_witness :
    ((detectDrift [] resW = false) ↔ ∃ st, lookupState [] resW.id = some st ∧
      ∃ v, lookupMeta st.metadata "config" = some v ∧
        marshalConfig resW.config = marshalMeta v)
    ∧ (lookupState [] resW.id = none → detectDrift [] resW = true)
    ∧ (∀ st, lookupState [] resW.id = some st →
        lookupMeta st.metadata "config" = none → detectDrift [] resW = true)
    ∧ detectDrift (markApplied [] resW) resW = false :=
  c5_detectDrift_spec [] resW

/-! ### Claim C6 -/

/-- C6 (amended): for every well-formed graph all of whose required-edge
targets exist as nodes, whenever `TopologicalSort` succeeds, `Plan()`
emits exactly one action per node in `TopologicalSort` order; each action
has an empty change list, is never a Delete, and is a Create with reason
"resource not in state" when the resource has no state entry, an Update
with reason "configuration drift detected" when an entry exists and
`DetectDrift` is true, and a NoOp with reason "resource up to date"
otherwise.  (As stated, without the existing-targets condition, the claim
is refuted by `c6_counterexample`: the sort can succeed with a phantom id
in the order and `Plan` then fails instead of emitting actions.) -/
theorem c6_plan_actions {g : List Res} (hWF : WF g) (hT : TargetsExist g)
    {order : List String} (hs : topologicalSort g = some order) (s : Store) :
    ∃ acts, plan g s = some acts ∧ acts.map (fun a => a.resourceId) = order ∧
      ∀ a ∈ acts, a.changes = [] ∧ a.type ≠ AType.delete ∧
        ∃ r, getResource g a.resourceId = some r ∧ a = planResource s r ∧
          (lookupState s a.resourceId = none →
            a.type = AType.create ∧ a.reason = "resource not in state") ∧
          (∀ st, lookupState s a.resourceId = some st → detectDrift s r = true →
            a.type = AType.update ∧ a.reason = "configuration drift detected") ∧
          (∀ st, lookupState s a.resourceId = some st → detectDrift s r = false →
            a.type = AType.noop ∧ a.reason = "resource up to date") := by
  have hmem : ∀ i ∈ order, i ∈ nodeIds g :=
    fun i hi => allKeys_subset hT i ((sort_facts hWF hs).2.2.1 i hi)
  refine ⟨_, plan_eq_of_sort hs hmem, ?_, ?_⟩
  · rw [List.map_map]
    have hcong : ∀ i ∈ order,
        ((fun a => a.resourceId) ∘ fun i => planResource s (resAt g i)) i = id i := by
      intro i hi
      obtain ⟨r, hr⟩ := getResource_isSome_of_mem (hmem i hi)
      simp only [Function.comp_apply, planResource_id, resAt, hr, Option.getD_some, id]
      exact (getResource_mem hr).2
    rw [List.map_congr_left hcong, List.map_id]
  · intro a ha
    obtain ⟨i, hi, hai⟩ := List.mem_map.mp ha
    obtain ⟨r, hr⟩ := getResource_isSome_of_mem (hmem i hi)
    have hres : resAt g i = r := by simp [resAt, hr]
    rw [hres] at hai
    have hid : a.resourceId = r.id := by rw [← hai, planResource_id]
    have hcases := planResource_cases s r
    refine ⟨by rw [← hai]; exact hcases.1, by rw [← hai]; exact hcases.2.1, r, ?_, hai.symm,
      ?_, ?_, ?_⟩
    · rw [hid, (getResource_mem hr).2]
      exact hr
    · intro hnone
      rw [hid] at hnone
      rw [← hai, hcases.2.2.1 hnone]
      exact ⟨rfl, rfl⟩
    · intro st hst hdt
      rw [hid] at hst
      rw [← hai, hcases.2.2.2.1 st hst hdt]
      exact ⟨rfl, rfl⟩
    · intro st hst hdf
      rw [hid] at hst
      rw [← hai, hcases.2.2.2.2 st hst hdf]
      exact ⟨rfl, rfl⟩

/-- C6 counterexample: on `g4` the sort succeeds (`[c, d, x, y]`), but
`Plan()` returns an error (no action list) because the phantom id "x" has
no resource in the graph — it does not emit one action per node. -/
theorem c6_counterexample :
    topologicalSort g4 = some ["c", "d", "x", "y"] ∧ plan g4 [] = none := by decide

/-- C6 witness. -/
theorem c6_witness :
    WF gW1 ∧ TargetsExist gW1 ∧ topologicalSort gW1 = some ["a", "b"] ∧
      (∃ acts, plan gW1 [] = some acts ∧
        acts.map (fun a => a.resourceId) = ["a", "b"] ∧
        ∀ a ∈ acts, a.changes = [] ∧ a.type ≠ AType.delete ∧
          ∃ r, getResource gW1 a.resourceId = some r ∧ a = planResource [] r ∧
            (lookupState [] a.resourceId = none →
              a.type = AType.create ∧ a.reason = "resource not in state") ∧
            (∀ st, lookupState [] a.resourceId = some st → detectDrift [] r = true →
              a.type = AType.update ∧ a.reason = "configuration drift detected") ∧
            (∀ st, lookupState [] a.resourceId = some st → detectDrift [] r = false →
              a.type = AType.noop ∧ a.reason = "resource up to date")) :=
  ⟨by decide, by decide, by decide,
    c6_plan_actions (by decide) (by decide) (by decide) []⟩

/-! ### Claim C7 -/

/-- C7 (amended): two consecutive `Plan()` calls with no intervening
mutation read the same node map, but Go's map iteration order is
unspecified, so the two calls correspond to two list representations of
the same map (`g1.Perm g2`).  For a well-formed graph whose required-edge
targets exist: either both calls fail, or both succeed with action lists
that are equal up to permutation (same actions, same types, same
reasons); the emitted ORDER can differ between the two calls, refuting
the claim as stated (`c7_counterexample`).  For the identical iteration
order (`g2 = g1`) the lists are literally identical. -/
theorem c7_plan_idempotent {g1 g2 : List Res} (hWF : WF g1) (hT : TargetsExist g1)
    (hperm : g1.Perm g2) (s : Store) :
    (plan g1 s = none ∧ plan g2 s = none) ∨
    ∃ a1 a2, plan g1 s = some a1 ∧ plan g2 s = some a2 ∧ a1.Perm a2 := by
  have hWF2 := WF_perm hperm hWF
  have hT2 := targetsExist_perm hperm hT
  by_cases hA : Acyclic g1
  · right
    have hA2 := acyclic_perm hperm hA
    obtain ⟨hs1, hp1⟩ := sort_some_of_acyclic hWF hT hA
    obtain ⟨hs2, hp2⟩ := sort_some_of_acyclic hWF2 hT2 hA2
    refine ⟨_, _, plan_eq_of_sort hs1 (fun i hi => hp1.mem_iff.mp hi),
      plan_eq_of_sort hs2 (fun i hi => hp2.mem_iff.mp hi), ?_⟩
    have hop : (sortState g1).acc.Perm ((sortState g2).acc) :=
      hp1.trans ((nodeIds_perm hperm).trans hp2.symm)
    have hfun : ∀ i ∈ (sortState g2).acc,
        planResource s (resAt g1 i) = planResource s (resAt g2 i) := by
      intro i _
      rw [resAt, resAt, getResource_perm hWF hperm i]
    have hmapped := hop.map (fun i => planResource s (resAt g1 i))
    rwa [List.map_congr_left hfun] at hmapped
  · left
    unfold Acyclic at hA
    push_neg at hA
    obtain ⟨l, hl⟩ := hA
    have h1 : topologicalSort g1 = none := sort_none_of_cycle_aux hWF hT hl
    have hl2 : IsReqCycle g2 l := by
      cases l with
      | nil => simp [IsReqCycle, isReqCycleB] at hl
      | cons v rest =>
        show chainB g2 v (rest ++ [v]) = true
        rw [← chainB_perm hperm]
        exact hl
    have h2 : topologicalSort g2 = none := sort_none_of_cycle_aux hWF2 hT2 hl2
    constructor <;> simp [plan, h1, h2]

/-- Two independent nodes, listed in the two possible iteration orders. -/
def pa : Res := ⟨"a", "t", 0, [], []⟩

/-- Second node for the C7 counterexample. -/
def pb : Res := ⟨"b", "t", 0, [], []⟩

/-- C7 counterexample: the same two-node map, iterated in its two possible
orders, yields action lists in different orders — consecutive `Plan()`
calls need not produce the same ordered list. -/
theorem c7_counterexample :
    [pa, pb].Perm [pb, pa] ∧ plan [pa, pb] [] ≠ plan [pb, pa] [] := by decide

/-- C7 witness. -/
theorem c7_witness :
    WF gW1 ∧ TargetsExist gW1 ∧ gW1.Perm gW1 ∧
      ((plan gW1 [] = none ∧ plan gW1 [] = none) ∨
        ∃ a1 a2, plan gW1 [] = some a1 ∧ plan gW1 [] = some a2 ∧ a1.Perm a2) :=
  ⟨by decide, by decide, List.Perm.refl _,
    c7_plan_idempotent (by decide) (by decide) (List.Perm.refl _) []⟩

/-! ### Claim C8 -/

/-- C8 (amended): for a well-formed, required-acyclic graph whose
required-edge targets all exist, if some resource declares a required
edge to a strictly higher layer then `ValidateDependencies` returns a
layer-violation error naming a resource that has such an offending edge
(the first one in iteration order, hence not necessarily A itself when
several resources offend); and when every required edge satisfies
layer(from) >= layer(to), targets exist and the required subgraph is
acyclic, it returns no error.  (As stated — "an error that names A" for
every violating A on every graph — the claim is refuted by
`c8_counterexample`: with a required cycle elsewhere the returned error
is the cycle error, which names no resource.) -/
theorem c8_validateDependencies {g : List Res} (hWF : WF g) (hT : TargetsExist g)
    (hA : Acyclic g) :
    ((∃ r ∈ g, LayerViol g r) → ∃ u fl tl,
      validateDependencies g = some (VErr.layerViolation u fl tl) ∧
      errNames (VErr.layerViolation u fl tl) u ∧ ∃ r ∈ g, r.id = u ∧ LayerViol g r) ∧
    ((∀ r ∈ g, ¬LayerViol g r) → validateDependencies g = none) := by
  obtain ⟨hs, -⟩ := sort_some_of_acyclic hWF hT hA
  have hvd : validateDependencies g = validateScan g g := by
    unfold validateDependencies
    rw [hs]
  have hres := validateScan_result (g := g) g (fun r hr => scanDeps_spec hT hr)
  constructor
  · rintro ⟨r, hr, hv⟩
    obtain ⟨u, fl, tl, hsc, r2, hr2, hid2, hv2⟩ := hres.2 ⟨r, hr, hv⟩
    exact ⟨u, fl, tl, hvd ▸ hsc, rfl, r2, hr2, hid2, hv2⟩
  · intro hok
    rw [hvd]
    exact hres.1 hok

/-- A layer violation (a at layer 0 requires b at layer 1) together with a
required cycle between c and d. -/
def gC8 : List Res :=
  [⟨"a", "t", 0, [⟨"b", "depends_on", true⟩], []⟩,
   ⟨"b", "t", 1, [], []⟩,
   ⟨"c", "t", 0, [⟨"d", "depends_on", true⟩], []⟩,
   ⟨"d", "t", 0, [⟨"c", "depends_on", true⟩], []⟩]

/-- A layer violation alone: a at layer 0 requires b at layer 1. -/
def gC8W : List Res :=
  [⟨"a", "t", 0, [⟨"b", "depends_on", true⟩], []⟩, ⟨"b", "t", 1, [], []⟩]

/-- C8 counterexample: `gC8` contains the required edge a -> b with
layer(a) < layer(b), but `ValidateDependencies` returns the cycle error
(the sort fails first on the unrelated required cycle c-d), which does not
name a. -/
theorem c8_counterexample :
    (∃ r ∈ gC8, LayerViol gC8 r) ∧
      validateDependencies gC8 = some VErr.cycleErr ∧
      ¬ errNames VErr.cycleErr "a" := by decide

theorem gC8W_acyclic : Acyclic gC8W := by
  apply acyclic_of_rank (fun s => if s = "b" then 1 else 0)
  intro u v h
  unfold ReqEdge reqEdgeB gC8W at h
  simp only [List.any_cons, List.any_nil, Bool.or_false, Bool.and_eq_true,
    beq_iff_eq, true_and, Bool.and_false, Bool.false_or, Bool.or_false] at h
  obtain ⟨hu, hv⟩ := h
  subst hu
  subst hv
  simp

/-- C8 witness. -/
theorem c8_witness :
    WF gC8W ∧ TargetsExist gC8W ∧ Acyclic gC8W ∧ (∃ r ∈ gC8W, LayerViol gC8W r) ∧
      (∃ u fl tl, validateDependencies gC8W = some (VErr.layerViolation u fl tl) ∧
        errNames (VErr.layerViolation u fl tl) u ∧
        ∃ r ∈ gC8W, r.id = u ∧ LayerViol gC8W r) :=
  ⟨by decide, by decide, gC8W_acyclic, by decide,
    (c8_validateDependencies (by decide) (by decide) gC8W_acyclic).1 (by decide)⟩

/-! ### Claim C9 -/

/-- C9: `Cleanup()` removes exactly the state entries whose id is not a
node of the current graph (the surviving store is the filter of the old
one), leaves every entry for a declared resource unchanged, and saves the
state file exactly when at least one entry was removed. -/
theorem c9_cleanup (g : List Res) (s : Store) :
    (cleanup g s).1 = s.filter (fun e => (nodeIds g).contains e.1) ∧
    (∀ e ∈ s, e.1 ∈ nodeIds g → e ∈ (cleanup g s).1) ∧
    (∀ e ∈ (cleanup g s).1, e ∈ s ∧ e.1 ∈ nodeIds g) ∧
    ((cleanup g s).2 = true ↔ ∃ e ∈ s, e.1 ∉ nodeIds g) := by
  refine ⟨cleanup_store g s, ?_, ?_, cleanup_saved g s⟩
  · intro e he hg
    rw [cleanup_store]
    exact List.mem_filter.mpr ⟨he, by simpa using hg⟩
  · intro e he
    rw [cleanup_store] at he
    have h2 := List.mem_filter.mp he
    exact ⟨h2.1, by simpa using h2.2⟩

/-- A concrete store for the C9 witness: "a" is declared in `gW1`, "z" is
not. -/
def storeW : Store :=
  [("a", ⟨StStatus.applied, JsonV.obj [], [("config", MetaVal.cfg [])]⟩),
   ("z", ⟨StStatus.failed, JsonV.empty, [("error", MetaVal.str "gone")]⟩)]

/-- C9 witness. -/
theorem c9_witness :
    (cleanup gW1 storeW).1 = storeW.filter (fun e => (nodeIds gW1).contains e.1) ∧
    (∀ e ∈ storeW, e.1 ∈ nodeIds gW1 → e ∈ (cleanup gW1 storeW).1) ∧
    (∀ e ∈ (cleanup gW1 storeW).1, e ∈ storeW ∧ e.1 ∈ nodeIds gW1) ∧
    ((cleanup gW1 storeW).2 = true ↔ ∃ e ∈ storeW, e.1 ∉ nodeIds gW1) :=
  c9_cleanup gW1 storeW

/-! ### Claim C10 -/

/-- C10: calling `AptManager.Install` or `AptManager.Remove` with an empty
package list returns a non-nil "all ... failed" error, whatever the
per-package command outcomes would be: the escalation condition
`failureCount == len(packages)` is vacuously `0 == 0`. -/
theorem c10_apt_empty_batch (run : String → Bool) (host : String) :
    aptInstall run host [] =
      some ("all package installations failed on host " ++ host) ∧
    aptRemove run host [] =
      some ("all package removals failed on host " ++ host) := ⟨rfl, rfl⟩

/-! ### Claim C1 -/

/-- First resource of the three-action executor scenario. -/
def rE1 : Res := ⟨"r1", "package", 0, [], []⟩

/-- Second resource of the three-action executor scenario (its Apply
fails). -/
def rE2 : Res := ⟨"r2", "package", 0, [], []⟩

/-- Third resource of the three-action executor scenario. -/
def rE3 : Res := ⟨"r3", "package", 0, [], []⟩

/-- The scenario graph. -/
def gE : List Res := [rE1, rE2, rE3]

/-- Apply outcomes: r2's Apply fails with "boom", the others succeed. -/
def applyE : String → Option String := fun i => if i = "r2" then some "boom" else none

/-- Destroy outcomes (never dispatched in the scenario). -/
def destroyE : String → Option String := fun _ => none

/-- The three-action plan the Planner emits for `gE` on an empty store. -/
def actsE : List Action :=
  [⟨"r1", AType.create, [], "resource not in state"⟩,
   ⟨"r2", AType.create, [], "resource not in state"⟩,
   ⟨"r3", AType.create, [], "resource not in state"⟩]

/-- The executor outcome on the scenario. -/
def execOutE : ExecOutcome :=
  ⟨[⟨"r1", true, none⟩],
   [("r1", ⟨StStatus.applied, JsonV.obj [], [("config", MetaVal.cfg [])]⟩),
    ("r2", ⟨StStatus.failed, JsonV.empty, [("error", MetaVal.str "boom")]⟩)],
   ["r1", "r2"],
   some "boom"⟩

/-- C1: in the three-action plan whose second action's Apply fails,
`Execute` yields Success=false, never attempts the third action, and
persists status=Failed with the error text under the "error" metadata key
for the failed resource — but `result.Actions` records exactly ONE
per-action outcome (the first success), not two: the failed
`ExecutionAction` is built and returned by `executeAction` yet never
appended to `result.Actions`, so the claimed "exactly two outcomes (one
success and one failure)" does not hold on the code. -/
theorem c1_exec_second_apply_fails :
    plan gE [] = some actsE ∧
    execute gE applyE destroyE actsE [] = some (false, execOutE) ∧
    execOutE.recorded.length = 1 ∧
    execOutE.recorded = [⟨"r1", true, none⟩] ∧
    execOutE.attempted = ["r1", "r2"] ∧
    ("r3" ∈ execOutE.attempted → False) ∧
    lookupState execOutE.store "r2" =
      some ⟨StStatus.failed, JsonV.empty, [("error", MetaVal.str "boom")]⟩ ∧
    execOutE.err = some "boom" := by decide

end Settle

